import Mathlib

/-!
Verification of the OCP canonicalizer (reference Rust implementation,
`src/protocol/hashing/reference_implementations/rust/canonicalizer.rs`).

The Rust code operates on `serde_json::Value`.  We embed that value model
shallowly:

* `serde_json::Number` stores one of a `u64`, a negative `i64`, or a finite
  `f64`.  We model the two integer classes directly.  A finite `f64` is
  modelled by its shortest decimal representation (the decimal that the
  `ryu` formatter used by `serde_json` prints): a mantissa and a decimal
  exponent, value `m * 10 ^ e`.  Distinct finite doubles have distinct
  shortest decimals and the map double-to-shortest-decimal is strictly
  monotone, so ordering comparisons of doubles coincide with rational
  comparisons of the decimals.  Negative zero is outside the model.
* `u64 as f64` casts (used by `Number::as_f64`) round to nearest, ties to
  even; `roundF64Nat` implements that rounding on the integer magnitude.
* Strings are Lean `String`s; Rust compares `String`s byte-wise on UTF-8,
  which coincides with code-point lexicographic order, and that is how
  `cmpString` below compares.
-/

namespace OCP

/-- The numeric payload of `serde_json::Number`: an unsigned integer
(`u64`), a negative signed integer (`i64`), or a finite double given by its
shortest decimal form `m * 10 ^ e`. -/
inductive Num where
  | pos (n : Nat)
  | neg (n : Nat)
  | flt (m : Int) (e : Int)
deriving DecidableEq, Repr

/-- The `serde_json::Value` sum type: Null, Bool, Number, String, Array,
Object.  An Object is carried as its entry list; `serde_json::Map` keeps
keys unique, which well-formedness (`WFValue`) records. -/
inductive Value where
  | null
  | bool (b : Bool)
  | num (n : Num)
  | str (s : String)
  | arr (elems : List Value)
  | obj (entries : List (String × Value))
deriving Repr

mutual

/-- Structural equality test on `Value` (the derive does not handle the
nested lists, so it is written out). -/
def beqValue : Value → Value → Bool
  | .null, .null => true
  | .bool a, .bool b => a == b
  | .num a, .num b => a == b
  | .str a, .str b => a == b
  | .arr a, .arr b => beqValueList a b
  | .obj a, .obj b => beqValueEntries a b
  | _, _ => false
termination_by structural v => v

/-- Pointwise `beqValue` on lists. -/
def beqValueList : List Value → List Value → Bool
  | [], [] => true
  | a :: as1, b :: bs => beqValue a b && beqValueList as1 bs
  | _, _ => false
termination_by structural l => l

/-- Pointwise `beqValue` on entry lists. -/
def beqValueEntries : List (String × Value) → List (String × Value) → Bool
  | [], [] => true
  | (k1, a) :: as1, (k2, b) :: bs =>
    k1 == k2 && beqValue a b && beqValueEntries as1 bs
  | _, _ => false
termination_by structural l => l

end

mutual

theorem beqValue_iff : ∀ a b : Value, beqValue a b = true ↔ a = b
  | .null, .null => by simp [beqValue]
  | .null, .bool _ | .null, .num _ | .null, .str _ | .null, .arr _
  | .null, .obj _ => by simp [beqValue]
  | .bool _, .null | .bool _, .num _ | .bool _, .str _ | .bool _, .arr _
  | .bool _, .obj _ => by simp [beqValue]
  | .num _, .null | .num _, .bool _ | .num _, .str _ | .num _, .arr _
  | .num _, .obj _ => by simp [beqValue]
  | .str _, .null | .str _, .bool _ | .str _, .num _ | .str _, .arr _
  | .str _, .obj _ => by simp [beqValue]
  | .arr _, .null | .arr _, .bool _ | .arr _, .num _ | .arr _, .str _
  | .arr _, .obj _ => by simp [beqValue]
  | .obj _, .null | .obj _, .bool _ | .obj _, .num _ | .obj _, .str _
  | .obj _, .arr _ => by simp [beqValue]
  | .bool a, .bool b => by simp [beqValue]
  | .num a, .num b => by simp [beqValue]
  | .str a, .str b => by simp [beqValue]
  | .arr a, .arr b => by
    simp only [beqValue, Value.arr.injEq]
    exact beqValueList_iff a b
  | .obj a, .obj b => by
    simp only [beqValue, Value.obj.injEq]
    exact beqValueEntries_iff a b

theorem beqValueList_iff : ∀ a b : List Value, beqValueList a b = true ↔ a = b
  | [], [] => by simp [beqValueList]
  | [], _ :: _ => by simp [beqValueList]
  | _ :: _, [] => by simp [beqValueList]
  | a :: as1, b :: bs => by
    simp only [beqValueList, Bool.and_eq_true, List.cons.injEq]
    exact and_congr (beqValue_iff a b) (beqValueList_iff as1 bs)

theorem beqValueEntries_iff :
    ∀ a b : List (String × Value), beqValueEntries a b = true ↔ a = b
  | [], [] => by simp [beqValueEntries]
  | [], _ :: _ => by simp [beqValueEntries]
  | _ :: _, [] => by simp [beqValueEntries]
  | (k1, a) :: as1, (k2, b) :: bs => by
    simp only [beqValueEntries, Bool.and_eq_true, List.cons.injEq,
      Prod.mk.injEq, beq_iff_eq]
    rw [beqValue_iff a b, beqValueEntries_iff as1 bs, and_assoc]

end

instance : DecidableEq Value := fun a b =>
  decidable_of_iff (beqValue a b = true) (beqValue_iff a b)

/-- The `type_str` helper of the Rust `JsonTypeStr` trait. -/
def typeStr : Value → String
  | .null => "null"
  | .bool _ => "bool"
  | .num _ => "number"
  | .str _ => "string"
  | .arr _ => "array"
  | .obj _ => "object"

/-- Discriminant of a `Value`, as compared by `std::mem::discriminant`. -/
def discr : Value → Nat
  | .null => 0
  | .bool _ => 1
  | .num _ => 2
  | .str _ => 3
  | .arr _ => 4
  | .obj _ => 5

/-- The primitive test of `deep_sort`: Null, Bool, Number or String. -/
def isPrimV : Value → Bool
  | .null => true
  | .bool _ => true
  | .num _ => true
  | .str _ => true
  | _ => false

/-- Rust `Value::is_object`. -/
def Value.isObject : Value → Bool
  | .obj _ => true
  | _ => false

/-- Three-way comparison on naturals. -/
def cmpNatO (a b : Nat) : Ordering :=
  if a < b then .lt else if a = b then .eq else .gt

/-- Three-way comparison on rationals (the order of finite doubles). -/
def cmpQ (a b : ℚ) : Ordering :=
  if a < b then .lt else if a = b then .eq else .gt

/-- Code-point lexicographic comparison of character lists; equal to Rust's
byte-wise `str` comparison because UTF-8 preserves code point order. -/
def cmpChars : List Char → List Char → Ordering
  | [], [] => .eq
  | [], _ :: _ => .lt
  | _ :: _, [] => .gt
  | a :: as1, b :: bs =>
    match cmpNatO a.toNat b.toNat with
    | .eq => cmpChars as1 bs
    | o => o

/-- Rust `String`/`str` `Ord` (byte-wise on UTF-8). -/
def cmpString (a b : String) : Ordering :=
  cmpChars a.data b.data

/-- Rust `bool` `Ord`: false is less than true. -/
def cmpBool : Bool → Bool → Ordering
  | false, false => .eq
  | false, true => .lt
  | true, false => .gt
  | true, true => .eq

/-- Fuel-based `⌊log₂ n⌋` (the fuel only needs to dominate the recursion
depth; `nlog2 n n` always suffices), written structurally so that it
evaluates by kernel reduction, which `Nat.log2` does not. -/
def nlog2 : Nat → Nat → Nat
  | 0, _ => 0
  | fuel + 1, n => if n ≤ 1 then 0 else nlog2 fuel (n / 2) + 1

theorem nlog2_fuel : ∀ (fuel n : Nat), n ≤ fuel → nlog2 fuel n = Nat.log2 n := by
  intro fuel
  induction fuel with
  | zero =>
    intro n h
    have h0 : n = 0 := by omega
    subst h0
    rw [nlog2]
    conv_rhs => rw [Nat.log2]
    rw [if_neg (by omega)]
  | succ f ih =>
    intro n h
    rw [nlog2]
    by_cases h1 : n ≤ 1
    · rw [if_pos h1]
      conv_rhs => rw [Nat.log2]
      rw [if_neg (by omega)]
    · rw [if_neg h1, ih (n / 2) (by omega)]
      conv_rhs => rw [Nat.log2]
      rw [if_pos (by omega)]

theorem nlog2_log2 (n : Nat) : nlog2 n n = Nat.log2 n :=
  nlog2_fuel n n (Nat.le_refl n)

/-- Round a natural to 53 significant binary digits, ties to even: the
`u64 as f64` cast used by `Number::as_f64`. -/
def roundF64Nat (n : Nat) : Nat :=
  if n < 2 ^ 53 then n
  else
    let s := nlog2 n n
    let unit := 2 ^ (s - 52)
    let q := n / unit
    let r := n % unit
    let half := unit / 2
    let q2 := if half < r || (r == half && q % 2 == 1) then q + 1 else q
    q2 * unit

/-- Value of a shortest-decimal token: `m * 10 ^ e` as a rational (written
with `Rat.divInt` and natural-number powers so that it evaluates by kernel
reduction). -/
def decValue (m : Int) (e : Int) : ℚ :=
  if 0 ≤ e then Rat.divInt (m * ((10 ^ e.toNat : Nat) : Int)) 1
  else Rat.divInt m ((10 ^ (-e).toNat : Nat) : Int)

/-- Whether `2 ^ z ≤ a / d`, decided in integer arithmetic. -/
def le2pow (z : Int) (a d : Nat) : Bool :=
  if 0 ≤ z then d * 2 ^ z.toNat ≤ a else d ≤ a * 2 ^ (-z).toNat

/-- `⌊log₂ (a / d)⌋` for positive `a`, `d`: the bit-length estimate is off
by at most one and is corrected by a single comparison. -/
def ilog2NN (a d : Nat) : Int :=
  let z : Int := (nlog2 a a : Int) - (nlog2 d d : Int)
  if le2pow z a d then z else z - 1

/-- Round a rational to the value of the nearest IEEE-754 double
(round-to-nearest, ties to even, 53-bit significands, subnormal spacing
`2 ^ (-1074)` below the normal range; overflow to infinity is outside the
model, which only receives descriptions of finite doubles).  All the
arithmetic is on `Nat`/`Int`, with `Rat.divInt` at the boundary, so the
kernel can evaluate it. -/
def roundF64Q (q : ℚ) : ℚ :=
  if q.num = 0 then 0
  else
    let a := q.num.natAbs
    let d := q.den
    let E : Int :=
      let E0 := ilog2NN a d - 52
      if E0 < -1074 then -1074 else E0
    let num2 := if 0 ≤ E then a else a * 2 ^ (-E).toNat
    let den2 := if 0 ≤ E then d * 2 ^ E.toNat else d
    let k0 := num2 / den2
    let rem := num2 % den2
    let k : Int :=
      if 2 * rem < den2 then (k0 : Int)
      else if den2 < 2 * rem then (k0 : Int) + 1
      else if k0 % 2 = 0 then (k0 : Int) else (k0 : Int) + 1
    let ks : Int := if q.num < 0 then -k else k
    if 0 ≤ E then Rat.divInt (ks * ((2 ^ E.toNat : Nat) : Int)) 1
    else Rat.divInt ks ((2 ^ (-E).toNat : Nat) : Int)

/-- Model of `Number::as_f64` in one coordinate system, the exact values
of the doubles produced: `u64`/`i64` payloads are cast with rounding, and
a float payload, recorded by its shortest decimal `m * 10 ^ e`, is the
double that decimal denotes — the decimal's value rounded to the nearest
double.  It returns `Some` for every `serde_json` number. -/
def asF64 : Num → Option ℚ
  | .pos n => some (roundF64Nat n : ℚ)
  | .neg n => some (-(roundF64Nat n : ℚ))
  | .flt m e => some (roundF64Q (decValue m e))

/-- Model of `f64::partial_cmp`: total on the model because `serde_json`
numbers are never NaN (`Number::from_f64` rejects non-finite input). -/
def partialCmpF64 (a b : ℚ) : Option Ordering := some (cmpQ a b)

/-- The element comparator closure passed to `sort_by` in `deep_sort`:
strings byte-wise, numbers as `f64` (with the `unwrap_or` defaults of the
code), booleans with false first, every other pairing `Equal`. -/
def cmpVal : Value → Value → Ordering
  | .str s1, .str s2 => cmpString s1 s2
  | .num n1, .num n2 =>
    let f1 := (asF64 n1).getD 0
    let f2 := (asF64 n2).getD 0
    (partialCmpF64 f1 f2).getD .eq
  | .bool b1, .bool b2 => cmpBool b1 b2
  | _, _ => .eq

/-- Integer-typed and float-typed numbers are compared in one coordinate
system: the `u64` value `2 ^ 60` and the float whose shortest decimal is
`1.152921504606847e18` are the same double, and the comparator ties in
both orders (`Number::as_f64` of both is the same `f64`). -/
theorem cmpVal_mixed_tie :
    cmpVal (.num (.pos (2 ^ 60))) (.num (.flt 1152921504606847 3)) = .eq ∧
    cmpVal (.num (.flt 1152921504606847 3)) (.num (.pos (2 ^ 60))) = .eq := by
  refine ⟨by decide, by decide⟩

/-- Stable insertion of `a` into a list: `a` goes before the first element
it does not compare greater than.  On sorted input this realises the
specification of Rust's stable `sort_by`. -/
def ordInsertBy (cmp : α → α → Ordering) (a : α) : List α → List α
  | [] => [a]
  | b :: l => if cmp a b = .gt then b :: ordInsertBy cmp a l else a :: b :: l

/-- Stable sort by a comparator (the behaviour Rust guarantees for
`slice::sort_by`: sorted output, ties in original order). -/
def insSortBy (cmp : α → α → Ordering) : List α → List α
  | [] => []
  | a :: l => ordInsertBy cmp a (insSortBy cmp l)

/-- Insertion into a key-sorted association list, replacing the value when
the key is already present: the semantics of `BTreeMap::insert`. -/
def objInsert (k : String) (v : Value) :
    List (String × Value) → List (String × Value)
  | [] => [(k, v)]
  | (k2, v2) :: rest =>
    match cmpString k k2 with
    | .lt => (k, v) :: (k2, v2) :: rest
    | .eq => (k, v) :: rest
    | .gt => (k2, v2) :: objInsert k v rest

/-- Build the `BTreeMap` of `deep_sort`'s object branch by inserting the
entries in iteration order. -/
def buildSorted (l : List (String × Value)) : List (String × Value) :=
  l.foldl (fun acc kv => objInsert kv.1 kv.2 acc) []

mutual

/-- Shallow embedding of the Rust `deep_sort`: objects are rebuilt through
a key-sorted map, arrays of same-variant primitives are stably sorted with
`cmpVal`, all other arrays keep their order, primitives are returned
unchanged. -/
def deep_sort : Value → Value
  | .null => .null
  | .bool b => .bool b
  | .num n => .num n
  | .str s => .str s
  | .arr elems =>
    let mapped := deepSortList elems
    if elems.all isPrimV && elems.length != 0 then
      let t := discr (elems.headD .null)
      if elems.all (fun v => discr v == t) then
        .arr (insSortBy cmpVal mapped)
      else
        .arr mapped
    else
      .arr mapped
  | .obj entries => .obj (buildSorted (deepSortEntries entries))
termination_by structural v => v

/-- `deep_sort` mapped over array elements. -/
def deepSortList : List Value → List Value
  | [] => []
  | v :: vs => deep_sort v :: deepSortList vs
termination_by structural l => l

/-- `deep_sort` mapped over the values of object entries. -/
def deepSortEntries : List (String × Value) → List (String × Value)
  | [] => []
  | (k, v) :: rest => (k, deep_sort v) :: deepSortEntries rest
termination_by structural l => l

end

/-! ### Serialization (`serde_json::to_string` on a `Value`)

`serde_json::to_string` of a `Value` cannot fail: the `Serialize`
implementation for `Value` only writes compact JSON tokens and the string
writer is infallible, so the `Err` arm of the `match` in `canonicalize`
(and the stringify fallback behind it) is unreachable.  The serializer is
therefore embedded as a total function. -/

/-- Decimal digit character. -/
def digitChar (d : Nat) : Char := Char.ofNat (48 + d)

/-- Left brace character (0x7b). -/
def lbrace : Char := Char.ofNat 123

/-- Right brace character (0x7d). -/
def rbrace : Char := Char.ofNat 125

/-- Backslash character. -/
def bslash : Char := Char.ofNat 92

/-- Double-quote character. -/
def dquote : Char := Char.ofNat 34

/-- Minimal decimal digits of a natural, most significant first; the fuel
bounds the number of division steps and never runs out when it exceeds the
digit count. -/
def natCharsAux : Nat → Nat → List Char → List Char
  | 0, _, acc => acc
  | fuel + 1, n, acc =>
    if n < 10 then digitChar n :: acc
    else natCharsAux fuel (n / 10) (digitChar (n % 10) :: acc)

/-- Decimal rendering of a natural (no leading zeros, no sign). -/
def natChars (n : Nat) : List Char := natCharsAux (n + 1) n []

/-- Decimal rendering of an integer (minus sign when negative). -/
def intChars (i : Int) : List Char :=
  if i < 0 then '-' :: natChars i.natAbs else natChars i.natAbs

/-- Lowercase hexadecimal digit character. -/
def hexDigit (d : Nat) : Char :=
  if d < 10 then Char.ofNat (48 + d) else Char.ofNat (87 + d)

/-- Unsigned body of the rendering of one finite double from its shortest
decimal form, modelled from the `ryu` pretty formatter that `serde_json`
uses: with `L` the digit count of the mantissa and `kk = L + e` the
decimal-point position, fixed notation is used for `0 < kk ≤ 16`
(appending `.0` when the value is integral), the `0.0…digits` form for
`−5 < kk ≤ 0`, and exponent notation `d.ddde±e` otherwise; zero prints
`0.0`. -/
def fltBody (m : Int) (e : Int) : List Char :=
  let ds := natChars m.natAbs
  let L : Int := ds.length
  let kk : Int := L + e
  if 0 < kk ∧ kk ≤ 16 then
    if 0 ≤ e then
      ds ++ List.replicate e.toNat '0' ++ ['.', '0']
    else
      ds.take kk.toNat ++ '.' :: ds.drop kk.toNat
  else if -5 < kk ∧ kk ≤ 0 then
    '0' :: '.' :: List.replicate (-kk).toNat '0' ++ ds
  else
    ds.take 1 ++
      (if ds.length = 1 then [] else '.' :: ds.drop 1) ++
      'e' :: intChars (kk - 1)

/-- Rendering of one finite double from its shortest decimal form: sign,
then the unsigned body. -/
def fltChars (m : Int) (e : Int) : List Char :=
  if m = 0 then ['0', '.', '0']
  else (if m < 0 then ['-'] else []) ++ fltBody m e

/-- Rendering of a `serde_json::Number`: integers in minimal decimal form,
floats through the `ryu`-style formatter. -/
def numChars : Num → List Char
  | .pos n => natChars n
  | .neg n => '-' :: natChars n
  | .flt m e => fltChars m e

/-- JSON escaping of one character as `serde_json` performs it: quote and
backslash escaped, control characters below 0x20 as the short escapes
`b`, `t`, `n`, `f`, `r` or as a lowercase `u00XX` escape, everything else
(including non-ASCII) passed through raw. -/
def escapeChar (c : Char) : List Char :=
  if c = dquote then [bslash, dquote]
  else if c = bslash then [bslash, bslash]
  else if c.toNat < 32 then
    if c.toNat = 8 then [bslash, 'b']
    else if c.toNat = 9 then [bslash, 't']
    else if c.toNat = 10 then [bslash, 'n']
    else if c.toNat = 12 then [bslash, 'f']
    else if c.toNat = 13 then [bslash, 'r']
    else [bslash, 'u', '0', '0', hexDigit (c.toNat / 16), hexDigit (c.toNat % 16)]
  else [c]

/-- JSON escaping of a character list. -/
def escChars : List Char → List Char
  | [] => []
  | c :: cs => escapeChar c ++ escChars cs

/-- A JSON string literal: quote, escaped content, quote. -/
def serStr (s : String) : List Char := dquote :: escChars s.data ++ [dquote]

mutual

/-- The compact JSON serialization of a `Value`, character by character:
the output of `serde_json::to_string`. -/
def serVal : Value → List Char
  | .num n => numChars n
  | .str s => serStr s
  | .null => ['n', 'u', 'l', 'l']
  | .arr elems => '[' :: serElems elems ++ [']']
  | .bool true => ['t', 'r', 'u', 'e']
  | .obj entries => lbrace :: serEntries entries ++ [rbrace]
  | .bool false => ['f', 'a', 'l', 's', 'e']
termination_by structural v => v

/-- Comma-separated serialization of array elements. -/
def serElems : List Value → List Char
  | [] => []
  | [v] => serVal v
  | v :: v2 :: rest => serVal v ++ ',' :: serElems (v2 :: rest)
termination_by structural l => l

/-- Comma-separated serialization of `"key":value` object members. -/
def serEntries : List (String × Value) → List Char
  | [] => []
  | [(k, v)] => serStr k ++ ':' :: serVal v
  | (k, v) :: e2 :: rest => serStr k ++ ':' :: serVal v ++ ',' :: serEntries (e2 :: rest)
termination_by structural l => l

end

/-! ### Errors and `canonicalize` -/

/-- The `ConstitutionalError` enum. -/
inductive CErr where
  | protocolError (msg : String)
  | canonicalizationError (msg : String)
  | hashingError (msg : String)
deriving DecidableEq, Repr

instance {ε α : Type _} [DecidableEq ε] [DecidableEq α] : DecidableEq (Except ε α)
  | .ok a, .ok b => decidable_of_iff (a = b) (by simp)
  | .ok _, .error _ => isFalse (by simp)
  | .error _, .ok _ => isFalse (by simp)
  | .error a, .error b => decidable_of_iff (a = b) (by simp)

/-- The non-strict wrapper: an Object with the single key `value`. -/
def wrapValue (v : Value) : Value := .obj [("value", v)]

/-- The object path of `canonicalize`: deep sort, serialize, reject an
empty canonical string.  (The `Err` arm of `serde_json::to_string` and the
stringify fallback behind it are unreachable, see the serializer note.) -/
def canonicalizeObj (data : Value) : Except CErr String :=
  let sorted := deep_sort data
  let canonicalJson := String.mk (serVal sorted)
  if canonicalJson.isEmpty then
    .error (.canonicalizationError "Failed to produce canonical JSON string")
  else
    .ok canonicalJson

/-- Shallow embedding of the Rust `canonicalize`: non-objects fail in
strict mode and are wrapped (and canonicalized non-strictly, which takes
the object path) otherwise; objects are deep sorted and serialized. -/
def canonicalize (data : Value) (strict : Bool) : Except CErr String :=
  if data.isObject then canonicalizeObj data
  else if strict then
    .error (.canonicalizationError
      (String.mk (("Input must be an object, got ").data ++
        dquote :: (typeStr data).data ++ [dquote])))
  else canonicalizeObj (wrapValue data)

/-! ### SHA-256 (the `sha2` crate's `Sha256`), hex, UTF-8 -/

/-- Addition modulo 2^32. -/
def add32 (a b : Nat) : Nat := (a + b) % 2 ^ 32

/-- Right rotation of a 32-bit word. -/
def rotr32 (x n : Nat) : Nat := ((x >>> n) ||| (x <<< (32 - n))) % 2 ^ 32

/-- The SHA-256 round constants (fractional parts of the cube roots of the
first 64 primes, FIPS 180-4). -/
def shaK : List Nat :=
  [1116352408, 1899447441, 3049323471, 3921009573, 961987163, 1508970993,
   2453635748, 2870763221, 3624381080, 310598401, 607225278, 1426881987,
   1925078388, 2162078206, 2614888103, 3248222580, 3835390401, 4022224774,
   264347078, 604807628, 770255983, 1249150122, 1555081692, 1996064986,
   2554220882, 2821834349, 2952996808, 3210313671, 3336571891, 3584528711,
   113926993, 338241895, 666307205, 773529912, 1294757372, 1396182291,
   1695183700, 1986661051, 2177026350, 2456956037, 2730485921, 2820302411,
   3259730800, 3345764771, 3516065817, 3600352804, 4094571909, 275423344,
   430227734, 506948616, 659060556, 883997877, 958139571, 1322822218,
   1537002063, 1747873779, 1955562222, 2024104815, 2227730452, 2361852424,
   2428436474, 2756734187, 3204031479, 3329325298]

/-- The SHA-256 initial hash state (fractional parts of the square roots
of the first 8 primes, FIPS 180-4). -/
def shaH0 : List Nat :=
  [1779033703, 3144134277, 1013904242, 2773480762, 1359893119, 2600822924,
   528734635, 1541459225]

/-- SHA-256 padding: append 0x80, zero bytes to 56 mod 64, and the bit
length as 8 big-endian bytes. -/
def shaPad (msg : List Nat) : List Nat :=
  let len := msg.length
  let zeros := (119 - len % 64) % 64
  let lenBits := len * 8
  msg ++ 128 :: List.replicate zeros 0 ++
    [lenBits / 2 ^ 56 % 256, lenBits / 2 ^ 48 % 256, lenBits / 2 ^ 40 % 256,
     lenBits / 2 ^ 32 % 256, lenBits / 2 ^ 24 % 256, lenBits / 2 ^ 16 % 256,
     lenBits / 2 ^ 8 % 256, lenBits % 256]

/-- Big-endian packing of bytes into 32-bit words. -/
def bytesToWords : List Nat → List Nat
  | a :: b :: c :: d :: rest => (((a * 256 + b) * 256 + c) * 256 + d) :: bytesToWords rest
  | _ => []

/-- Split a word list into 16-word blocks; the fuel is bounded by the list
length. -/
def chunk16Aux : Nat → List Nat → List (List Nat)
  | 0, _ => []
  | _, [] => []
  | fuel + 1, a :: w => (a :: w).take 16 :: chunk16Aux fuel ((a :: w).drop 16)

/-- Split a word list into 16-word blocks. -/
def chunk16 (l : List Nat) : List (List Nat) := chunk16Aux l.length l

/-- Extend a 16-word block by `fuel` scheduled words (FIPS 180-4 message
schedule). -/
def extendW (ws : List Nat) : Nat → List Nat
  | 0 => ws
  | fuel + 1 =>
    let j := ws.length
    let w15 := ws.getD (j - 15) 0
    let w2 := ws.getD (j - 2) 0
    let w16 := ws.getD (j - 16) 0
    let w7 := ws.getD (j - 7) 0
    let s0 := rotr32 w15 7 ^^^ rotr32 w15 18 ^^^ (w15 >>> 3)
    let s1 := rotr32 w2 17 ^^^ rotr32 w2 19 ^^^ (w2 >>> 10)
    extendW (ws ++ [(w16 + s0 + w7 + s1) % 2 ^ 32]) fuel

/-- One SHA-256 compression round on the 8-word state. -/
def shaRound (st : List Nat) (kw : Nat × Nat) : List Nat :=
  match st with
  | [a, b, c, d, e, f, g, h] =>
    let s1 := rotr32 e 6 ^^^ rotr32 e 11 ^^^ rotr32 e 25
    let ch := (e &&& f) ^^^ ((e ^^^ (2 ^ 32 - 1)) &&& g)
    let t1 := (h + s1 + ch + kw.1 + kw.2) % 2 ^ 32
    let s0 := rotr32 a 2 ^^^ rotr32 a 13 ^^^ rotr32 a 22
    let maj := (a &&& b) ^^^ (a &&& c) ^^^ (b &&& c)
    let t2 := (s0 + maj) % 2 ^ 32
    [(t1 + t2) % 2 ^ 32, a, b, c, (d + t1) % 2 ^ 32, e, f, g]
  | _ => st

/-- Compress one message block into the running state. -/
def shaBlock (st : List Nat) (block : List Nat) : List Nat :=
  let w := extendW block 48
  let out := (shaK.zip w).foldl shaRound st
  List.zipWith add32 st out

/-- The SHA-256 digest of a byte list, as 32 bytes. -/
def sha256Bytes (msg : List Nat) : List Nat :=
  let blocks := chunk16 (bytesToWords (shaPad msg))
  let final := blocks.foldl shaBlock shaH0
  final.flatMap fun w =>
    [w / 2 ^ 24 % 256, w / 2 ^ 16 % 256, w / 2 ^ 8 % 256, w % 256]

/-- Lowercase-hexadecimal rendering of a byte list, two digits per byte
(the `LowerHex` formatting the Rust code applies to the digest). -/
def hexOfBytes : List Nat → List Char
  | [] => []
  | b :: rest => hexDigit (b / 16 % 16) :: hexDigit (b % 16) :: hexOfBytes rest

/-- UTF-8 encoding of one character. -/
def utf8Char (c : Char) : List Nat :=
  let n := c.toNat
  if n < 128 then [n]
  else if n < 2048 then [192 + n / 64, 128 + n % 64]
  else if n < 65536 then [224 + n / 4096, 128 + n / 64 % 64, 128 + n % 64]
  else [240 + n / 262144, 128 + n / 4096 % 64, 128 + n / 64 % 64, 128 + n % 64]

/-- UTF-8 encoding of a character list. -/
def utf8Chars : List Char → List Nat
  | [] => []
  | c :: cs => utf8Char c ++ utf8Chars cs

/-- The UTF-8 bytes of a string (`str::as_bytes`). -/
def utf8Bytes (s : String) : List Nat := utf8Chars s.data

/-! ### The hash / verify / equality API -/

/-- Shallow embedding of the Rust `semantic_hash`: strict canonicalization
(errors propagate), SHA-256 over the canonical string's UTF-8 bytes,
lowercase hex output. -/
def semantic_hash (data : Value) : Except CErr String :=
  match canonicalize data true with
  | .error e => .error e
  | .ok s => .ok (String.mk (hexOfBytes (sha256Bytes (utf8Bytes s))))

/-- Shallow embedding of the Rust `verify_semantic_hash`: recompute and
compare exactly; hashing errors propagate. -/
def verify_semantic_hash (data : Value) (expected : String) : Except CErr Bool :=
  match semantic_hash data with
  | .error e => .error e
  | .ok h => .ok (h == expected)

/-- Shallow embedding of the Rust `canonically_equal`: strict
canonicalization of both sides, byte equality, failures collapse to
`false`. -/
def canonically_equal (d1 d2 : Value) : Bool :=
  match canonicalize d1 true, canonicalize d2 true with
  | .ok c1, .ok c2 => c1 == c2
  | _, _ => false

/-! ### Well-formedness

`serde_json` maintains invariants the Lean types do not force: a `u64`
payload is below `2 ^ 64`, a negative `i64` payload has magnitude in
`[1, 2 ^ 63]`, a shortest-decimal float has a normalized mantissa (not
divisible by 10, and zero only as `0 * 10 ^ 0`), and `serde_json::Map`
keeps object keys unique.  `wfValue` records them. -/

/-- Well-formedness of a number payload. -/
def wfNum : Num → Bool
  | .pos n => decide (n < 2 ^ 64)
  | .neg n => decide (1 ≤ n ∧ n ≤ 2 ^ 63)
  | .flt m e => if m = 0 then decide (e = 0) else decide (¬(10 : Int) ∣ m)

mutual

/-- Well-formedness of a value: number invariants hold everywhere and
object keys are pairwise distinct. -/
def wfValue : Value → Bool
  | .null => true
  | .bool _ => true
  | .num n => wfNum n
  | .str _ => true
  | .arr elems => wfValueList elems
  | .obj entries =>
    wfValueEntries entries && decide ((entries.map Prod.fst).Nodup)
termination_by structural v => v

/-- Pointwise well-formedness of array elements. -/
def wfValueList : List Value → Bool
  | [] => true
  | v :: vs => wfValue v && wfValueList vs
termination_by structural l => l

/-- Pointwise well-formedness of object entry values. -/
def wfValueEntries : List (String × Value) → Bool
  | [] => true
  | (_, v) :: rest => wfValue v && wfValueEntries rest
termination_by structural l => l

end

/-! ### The panic-explicit `deep_sort`

`deep_sort` contains exactly one partial operation: the index `arr[0]`,
which panics on an empty slice (modelled by `List.get?`).  The defaulting
combinators `unwrap_or(0.0)` and `unwrap_or(Ordering::Equal)` in the
number comparator are total by construction and already appear in
`cmpVal`.  `deepSortChecked` returns `none` exactly where the Rust code
could panic; proving it equal to `some (deep_sort v)` shows the code never
reaches a panic. -/

mutual

/-- `deep_sort` with the `arr[0]` access made partial. -/
def deepSortChecked : Value → Option Value
  | .null => some .null
  | .bool b => some (.bool b)
  | .num n => some (.num n)
  | .str s => some (.str s)
  | .arr elems =>
    match deepSortCheckedList elems with
    | none => none
    | some mapped =>
      if elems.all isPrimV && elems.length != 0 then
        match elems.get? 0 with
        | none => none
        | some v0 =>
          if elems.all (fun v => discr v == discr v0) then
            some (.arr (insSortBy cmpVal mapped))
          else
            some (.arr mapped)
      else
        some (.arr mapped)
  | .obj entries =>
    match deepSortCheckedEntries entries with
    | none => none
    | some es => some (.obj (buildSorted es))
termination_by structural v => v

/-- `deepSortChecked` over array elements. -/
def deepSortCheckedList : List Value → Option (List Value)
  | [] => some []
  | v :: vs =>
    match deepSortChecked v, deepSortCheckedList vs with
    | some w, some ws => some (w :: ws)
    | _, _ => none
termination_by structural l => l

/-- `deepSortChecked` over object entries. -/
def deepSortCheckedEntries : List (String × Value) → Option (List (String × Value))
  | [] => some []
  | (k, v) :: rest =>
    match deepSortChecked v, deepSortCheckedEntries rest with
    | some w, some ws => some ((k, w) :: ws)
    | _, _ => none
termination_by structural l => l

end

mutual

theorem deepSortChecked_eq : ∀ v : Value, deepSortChecked v = some (deep_sort v)
  | .null => rfl
  | .bool _ => rfl
  | .num _ => rfl
  | .str _ => rfl
  | .arr elems => by
    rw [deepSortChecked, deepSortCheckedList_eq elems, deep_sort]
    cases h : elems with
    | nil => simp
    | cons v0 vs =>
      simp only [List.get?, List.all_cons, List.headD_cons, Bool.and_eq_true,
        List.all_eq_true, beq_iff_eq, List.length_cons, bne_iff_ne, ne_eq]
      split_ifs <;> simp
  | .obj entries => by
    rw [deepSortChecked, deepSortCheckedEntries_eq entries, deep_sort]

theorem deepSortCheckedList_eq :
    ∀ l : List Value, deepSortCheckedList l = some (deepSortList l)
  | [] => rfl
  | v :: vs => by
    rw [deepSortCheckedList, deepSortChecked_eq v, deepSortCheckedList_eq vs,
      deepSortList]

theorem deepSortCheckedEntries_eq :
    ∀ l : List (String × Value),
      deepSortCheckedEntries l = some (deepSortEntries l)
  | [] => rfl
  | (k, v) :: rest => by
    rw [deepSortCheckedEntries, deepSortChecked_eq v,
      deepSortCheckedEntries_eq rest, deepSortEntries]

end

/-! ### Shape of the digest and its hex rendering -/

/-- The sixteen lowercase hexadecimal characters. -/
def isHexChar (c : Char) : Bool :=
  (['0', '1', '2', '3', '4', '5', '6', '7', '8', '9'] ++
   ['a', 'b', 'c', 'd', 'e', 'f']).contains c

theorem shaRound_length (st : List Nat) (kw : Nat × Nat) :
    (shaRound st kw).length = st.length := by
  unfold shaRound
  split <;> simp

theorem foldl_shaRound_length (l : List (Nat × Nat)) (st : List Nat) :
    (l.foldl shaRound st).length = st.length := by
  induction l generalizing st with
  | nil => rfl
  | cons kw l ih => rw [List.foldl_cons, ih, shaRound_length]

theorem shaBlock_length (st block : List Nat) :
    (shaBlock st block).length = st.length := by
  unfold shaBlock
  rw [List.length_zipWith, foldl_shaRound_length]
  omega

theorem foldl_shaBlock_length (blocks : List (List Nat)) (st : List Nat) :
    (blocks.foldl shaBlock st).length = st.length := by
  induction blocks generalizing st with
  | nil => rfl
  | cons b bs ih => rw [List.foldl_cons, ih, shaBlock_length]

theorem flatMap_wordBytes_length (ws : List Nat) :
    (ws.flatMap fun w =>
      [w / 2 ^ 24 % 256, w / 2 ^ 16 % 256, w / 2 ^ 8 % 256, w % 256]).length =
      4 * ws.length := by
  induction ws with
  | nil => rfl
  | cons w ws ih =>
    simp only [List.flatMap_cons, List.length_append, ih, List.length_cons,
      List.length_nil]
    omega

theorem sha256Bytes_length (msg : List Nat) : (sha256Bytes msg).length = 32 := by
  unfold sha256Bytes
  rw [flatMap_wordBytes_length, foldl_shaBlock_length]
  rfl

theorem hexOfBytes_length (l : List Nat) : (hexOfBytes l).length = 2 * l.length := by
  induction l with
  | nil => rfl
  | cons b bs ih => simp [hexOfBytes, ih]; omega

/-- FIPS 180-4 test vector: the digest model computes SHA-256 of
`"abc"`. -/
theorem sha256_vector_abc :
    String.mk (hexOfBytes (sha256Bytes (utf8Bytes "abc"))) =
      "ba7816bf8f01cfea414140de5dae2223b00361a396177a9cb410ff61f20015ad" := by
  decide

/-- SHA-256 of 56 bytes of `'a'`: a message length at which the padding
must cross into a second 64-byte block (the class of lengths, 56..63 mod
64, on which a truncating zero count would misalign the padding). -/
theorem sha256_vector_56 :
    String.mk (hexOfBytes (sha256Bytes (List.replicate 56 97))) =
      "b35439a4ac6f0948b6d6f9e3c6af0f5f590ce20f1bde7090ef7970686ec6738a" := by
  decide

/-- SHA-256 of the empty message. -/
theorem sha256_vector_empty :
    String.mk (hexOfBytes (sha256Bytes [])) =
      "e3b0c44298fc1c149afbf4c8996fb92427ae41e4649b934ca495991b7852b855" := by
  decide

theorem hexDigit_isHex (d : Nat) (h : d < 16) : isHexChar (hexDigit d) = true := by
  interval_cases d <;> decide

theorem hexOfBytes_isHex (l : List Nat) :
    ∀ c ∈ hexOfBytes l, isHexChar c = true := by
  induction l with
  | nil => intro c hc; cases hc
  | cons b bs ih =>
    intro c hc
    rcases hc with _ | ⟨_, hc⟩
    · exact hexDigit_isHex _ (Nat.lt_of_lt_of_le (Nat.mod_lt _ (by omega)) (by omega))
    · rcases hc with _ | ⟨_, hc⟩
      · exact hexDigit_isHex _ (Nat.mod_lt _ (by omega))
      · exact ih c hc

/-! ### Decimal digit strings -/

/-- Decimal digit characters. -/
def isDigitChar (c : Char) : Bool := decide (48 ≤ c.toNat ∧ c.toNat ≤ 57)

/-- The numeric value of a decimal digit string. -/
def digitsVal (l : List Char) : Nat :=
  l.foldl (fun a c => 10 * a + (c.toNat - 48)) 0

theorem toNat_digitChar (d : Nat) (h : d < 10) : (digitChar d).toNat = 48 + d := by
  interval_cases d <;> decide

theorem natCharsAux_acc (fuel : Nat) :
    ∀ n acc, natCharsAux fuel n acc = natCharsAux fuel n [] ++ acc := by
  induction fuel with
  | zero => intro n acc; rfl
  | succ f ih =>
    intro n acc
    by_cases h : n < 10
    · simp [natCharsAux, h]
    · rw [natCharsAux, if_neg h, natCharsAux, if_neg h, ih _ (digitChar (n % 10) :: acc),
        ih _ [digitChar (n % 10)]]
      simp

theorem natCharsAux_fuel (f : Nat) :
    ∀ g n acc, n < 10 ^ f → n < 10 ^ g → 1 ≤ f → 1 ≤ g →
      natCharsAux f n acc = natCharsAux g n acc := by
  induction f with
  | zero => omega
  | succ f ih =>
    intro g n acc hf hg _ hg1
    match g, hg1 with
    | g + 1, _ =>
      by_cases h : n < 10
      · rw [natCharsAux, natCharsAux, if_pos h, if_pos h]
      · rw [natCharsAux, natCharsAux, if_neg h, if_neg h]
        have hf' : n / 10 < 10 ^ f := by
          rw [Nat.div_lt_iff_lt_mul (by omega)]
          calc n < 10 ^ (f + 1) := hf
          _ = 10 ^ f * 10 := by rw [pow_succ]
        have hg' : n / 10 < 10 ^ g := by
          rw [Nat.div_lt_iff_lt_mul (by omega)]
          calc n < 10 ^ (g + 1) := hg
          _ = 10 ^ g * 10 := by rw [pow_succ]
        have h1f : 1 ≤ f := by
          rcases Nat.eq_zero_or_pos f with rfl | h1
          · simp at hf; omega
          · exact h1
        have h1g : 1 ≤ g := by
          rcases Nat.eq_zero_or_pos g with rfl | h1
          · simp at hg; omega
          · exact h1
        exact ih g (n / 10) _ hf' hg' h1f h1g

theorem lt_ten_pow_succ (n : Nat) : n < 10 ^ (n + 1) := by
  calc n < 10 ^ n := Nat.lt_pow_self (by omega) n
  _ ≤ 10 ^ (n + 1) := Nat.pow_le_pow_right (by omega) (by omega)

theorem natChars_eq_fuel (n f : Nat) (h : n < 10 ^ f) (h1 : 1 ≤ f) :
    natChars n = natCharsAux f n [] :=
  natCharsAux_fuel (n + 1) f n [] (lt_ten_pow_succ n) h (by omega) h1

theorem natChars_small (n : Nat) (h : n < 10) : natChars n = [digitChar n] := by
  rw [natChars, natCharsAux, if_pos h]

theorem natChars_step (n : Nat) (h : 10 ≤ n) :
    natChars n = natChars (n / 10) ++ [digitChar (n % 10)] := by
  rw [natChars, natCharsAux, if_neg (by omega),
    natCharsAux_acc n (n / 10) [digitChar (n % 10)]]
  congr 1
  have hb : n / 10 < 10 ^ n := by
    calc n / 10 ≤ n := Nat.div_le_self n 10
    _ < 10 ^ n := Nat.lt_pow_self (by omega) n
  rw [natChars_eq_fuel (n / 10) n hb (by omega)]

theorem natChars_ne_nil (n : Nat) : natChars n ≠ [] := by
  by_cases h : n < 10
  · rw [natChars_small n h]; simp
  · rw [natChars_step n (by omega)]; simp

theorem natChars_all_digits (n : Nat) : ∀ c ∈ natChars n, isDigitChar c = true := by
  induction n using Nat.strong_induction_on with
  | _ n ih =>
    by_cases h : n < 10
    · rw [natChars_small n h]
      intro c hc
      rcases hc with _ | ⟨_, h0⟩
      · simp [isDigitChar, toNat_digitChar n h]; omega
      · cases h0
    · rw [natChars_step n (by omega)]
      intro c hc
      rcases List.mem_append.1 hc with h1 | h1
      · exact ih (n / 10) (by omega) c h1
      · rcases h1 with _ | ⟨_, h0⟩
        · simp [isDigitChar, toNat_digitChar _ (Nat.mod_lt n (by omega))]
          omega
        · cases h0

theorem natChars_head (n : Nat) (h : 1 ≤ n) : (natChars n).head? ≠ some '0' := by
  induction n using Nat.strong_induction_on with
  | _ n ih =>
    by_cases h10 : n < 10
    · rw [natChars_small n h10]
      intro hc
      have := toNat_digitChar n h10
      simp only [List.head?_cons, Option.some.injEq] at hc
      rw [hc] at this
      simp at this
      omega
    · rw [natChars_step n (by omega)]
      rw [List.head?_append_of_ne_nil _ (natChars_ne_nil (n / 10))]
      exact ih (n / 10) (by omega) (by omega)

theorem digitsVal_append (l1 l2 : List Char) :
    digitsVal (l1 ++ l2) =
      l2.foldl (fun a c => 10 * a + (c.toNat - 48)) (digitsVal l1) := by
  simp [digitsVal, List.foldl_append]

theorem digitsVal_natChars (n : Nat) : digitsVal (natChars n) = n := by
  induction n using Nat.strong_induction_on with
  | _ n ih =>
    by_cases h : n < 10
    · rw [natChars_small n h]
      simp [digitsVal, toNat_digitChar n h]
    · rw [natChars_step n (by omega), digitsVal_append, ih (n / 10) (by omega)]
      simp [toNat_digitChar _ (Nat.mod_lt n (by omega))]
      omega

theorem natChars_injective : Function.Injective natChars := by
  intro a b h
  have := digitsVal_natChars a
  rw [h, digitsVal_natChars b] at this
  omega

/-! ### Basic facts about `canonicalize` -/

theorem obj_of_isObject {v : Value} (h : v.isObject = true) :
    ∃ es, v = .obj es := by
  cases v <;> simp_all [Value.isObject]

theorem mk_isEmpty_of_ne_nil (l : List Char) (hl : l ≠ []) :
    (String.mk l).isEmpty = false := by
  rw [Bool.eq_false_iff]
  intro h
  rw [String.isEmpty_iff] at h
  exact hl (congrArg String.data h)

theorem deep_sort_obj (entries : List (String × Value)) :
    deep_sort (.obj entries) = .obj (buildSorted (deepSortEntries entries)) := by
  rw [deep_sort]

theorem canonicalize_obj_ok (entries : List (String × Value)) (strict : Bool) :
    canonicalize (.obj entries) strict =
      .ok (String.mk (serVal (deep_sort (.obj entries)))) := by
  rw [canonicalize]
  simp only [Value.isObject, if_true]
  rw [canonicalizeObj, deep_sort_obj, serVal]
  rw [if_neg (by rw [mk_isEmpty_of_ne_nil _ (by simp)]; exact Bool.false_ne_true)]

theorem canonicalize_nonobject_strict {v : Value} (h : v.isObject = false) :
    canonicalize v true =
      .error (.canonicalizationError
        (String.mk (("Input must be an object, got ").data ++
          dquote :: (typeStr v).data ++ [dquote]))) := by
  rw [canonicalize]
  simp [h]

theorem canonicalize_nonobject_lenient {v : Value} (h : v.isObject = false) :
    canonicalize v false = canonicalizeObj (wrapValue v) := by
  rw [canonicalize]
  simp [h]

/-! ### Claims C2, C4, C5, C7, C9, C10 -/

/-- C9: `deep_sort` is a total pure function: the partiality-explicit
embedding `deepSortChecked`, in which the `arr[0]` slice index (the only
panicking operation in the Rust function) returns `none` when out of
bounds, never returns `none` — for every input it returns exactly
`some (deep_sort v)`, the total function's value. -/
theorem claim_C9_deep_sort_total (v : Value) :
    deepSortChecked v = some (deep_sort v) :=
  deepSortChecked_eq v

/-- C5: on a non-Object input, strict canonicalization fails with a
CanonicalizationError, and non-strict canonicalization equals the
non-strict canonicalization of the single-key wrapper object
containing the value under the key `value`. -/
theorem claim_C5_nonobject_handling (v : Value) (h : v.isObject = false) :
    (∃ msg, canonicalize v true = .error (.canonicalizationError msg)) ∧
    canonicalize v false = canonicalize (wrapValue v) false := by
  constructor
  · exact ⟨_, canonicalize_nonobject_strict h⟩
  · rw [canonicalize_nonobject_lenient h, canonicalize]
    simp [wrapValue, Value.isObject]

theorem claim_C5_witness :
    Value.isObject .null = false ∧
    ((∃ msg, canonicalize .null true = .error (.canonicalizationError msg)) ∧
      canonicalize .null false = canonicalize (wrapValue .null) false) :=
  ⟨by decide, claim_C5_nonobject_handling .null (by decide)⟩

/-- C10: `canonically_equal` is not reflexive on non-Objects: it returns
false on `(v, v)` for every non-Object `v` (strict canonicalization fails
there) and true on `(O, O)` for every Object `O`. -/
theorem claim_C10_reflexivity (v O : Value) (hv : v.isObject = false)
    (hO : O.isObject = true) :
    canonically_equal v v = false ∧ canonically_equal O O = true := by
  constructor
  · rw [canonically_equal, canonicalize_nonobject_strict hv]
  · obtain ⟨es, rfl⟩ := obj_of_isObject hO
    rw [canonically_equal, canonicalize_obj_ok es true]
    simp

theorem claim_C10_witness :
    Value.isObject (.str "x") = false ∧ Value.isObject (.obj []) = true ∧
    canonically_equal (.str "x") (.str "x") = false ∧
    canonically_equal (.obj []) (.obj []) = true :=
  ⟨by decide, by decide,
    (claim_C10_reflexivity (.str "x") (.obj []) (by decide) (by decide)).1,
    (claim_C10_reflexivity (.str "x") (.obj []) (by decide) (by decide)).2⟩

/-- C7: `canonically_equal` is a total Boolean predicate: it returns true
exactly when strict canonicalization succeeds on both inputs with
byte-identical canonical strings, and false in every other case (in
particular whenever strict canonicalization fails on either side). -/
theorem claim_C7_total_equality (v1 v2 : Value) :
    canonically_equal v1 v2 = true ↔
      ∃ s1 s2, canonicalize v1 true = .ok s1 ∧ canonicalize v2 true = .ok s2 ∧
        s1 = s2 := by
  rw [canonically_equal]
  cases h1 : canonicalize v1 true <;> cases h2 : canonicalize v2 true <;>
    simp [h1, h2]

theorem claim_C7_witness :
    canonically_equal (.obj []) (.obj []) = true :=
  (claim_C7_total_equality (.obj []) (.obj [])).mpr
    ⟨String.mk [lbrace, rbrace], String.mk [lbrace, rbrace],
      by decide, by decide, rfl⟩

/-- C2: `semantic_hash` canonicalizes strictly, propagating any
CanonicalizationError; on success it returns the lowercase hexadecimal
SHA-256 digest of the canonical string's UTF-8 bytes, a string of exactly
64 lowercase hexadecimal characters. -/
theorem claim_C2_semantic_hash (v : Value) :
    (∀ e, canonicalize v true = .error e → semantic_hash v = .error e) ∧
    (∀ s, canonicalize v true = .ok s →
      semantic_hash v = .ok (String.mk (hexOfBytes (sha256Bytes (utf8Bytes s))))) ∧
    (∀ h, semantic_hash v = .ok h →
      h.length = 64 ∧ ∀ c ∈ h.data, isHexChar c = true) := by
  refine ⟨?_, ?_, ?_⟩
  · intro e he; rw [semantic_hash, he]
  · intro s hs; rw [semantic_hash, hs]
  · intro h hh
    rw [semantic_hash] at hh
    cases hc : canonicalize v true with
    | error e => rw [hc] at hh; cases hh
    | ok s =>
      rw [hc] at hh
      injection hh with hh
      subst hh
      constructor
      · show (hexOfBytes (sha256Bytes (utf8Bytes s))).length = 64
        rw [hexOfBytes_length, sha256Bytes_length]
      · exact fun c hc2 => hexOfBytes_isHex _ c hc2

theorem claim_C2_witness :
    semantic_hash (.obj [("a", .num (.pos 1))]) =
      .ok "015abd7f5cc57a2dd94b7590f04ad8084273905ee33ec5cebeae62276a97f862" ∧
    ("015abd7f5cc57a2dd94b7590f04ad8084273905ee33ec5cebeae62276a97f862" :
        String).length = 64 ∧
    ∀ c ∈ ("015abd7f5cc57a2dd94b7590f04ad8084273905ee33ec5cebeae62276a97f862" :
        String).data, isHexChar c = true :=
  ⟨by decide, (claim_C2_semantic_hash (.obj [("a", .num (.pos 1))])).2.2 _ (by decide)⟩

/-- C4 counterexample: the numbers `1.0` (float-typed) and `1`
(integer-typed) denote the same integral numeric value, yet the canonical
serialization renders the float-typed one with a decimal point and a
trailing `.0` and the integer-typed one without — the rendering is not
independent of how the Number was constructed. -/
theorem claim_C4_counterexample :
    decValue 1 0 = ((1 : Nat) : ℚ) ∧
    canonicalize (.obj [("a", .num (.flt 1 0))]) true =
      .ok (String.mk [lbrace, dquote, 'a', dquote, ':', '1', '.', '0', rbrace]) ∧
    canonicalize (.obj [("a", .num (.pos 1))]) true =
      .ok (String.mk [lbrace, dquote, 'a', dquote, ':', '1', rbrace]) := by
  refine ⟨by decide, by decide, by decide⟩

/-- C4 amended: integer-typed numbers (u64 and negative i64) are rendered
in minimal decimal form — only digits (after the sign for negatives), no
decimal point, no exponent, no leading zeros; float-typed numbers go
through the float formatter, which appends `.0` to every integral value it
prints in fixed notation, so the textual form depends on whether the
Number was integer-typed or float-typed. -/
theorem claim_C4_amended :
    (∀ k : Nat, numChars (.pos k) = natChars k ∧
      (∀ c ∈ natChars k, isDigitChar c = true) ∧
      (1 ≤ k → (natChars k).head? ≠ some '0')) ∧
    (∀ k : Nat, numChars (.neg k) = '-' :: natChars k) ∧
    (∀ m e : Int, m ≠ 0 → 0 ≤ e →
      ((natChars m.natAbs).length : Int) + e ≤ 16 →
      ∃ pre, numChars (.flt m e) = pre ++ ['.', '0']) := by
  refine ⟨fun k => ⟨rfl, natChars_all_digits k, natChars_head k⟩,
    fun k => rfl, fun m e hm he hk => ?_⟩
  have hL : 1 ≤ (natChars m.natAbs).length :=
    List.length_pos.mpr (natChars_ne_nil m.natAbs)
  rw [numChars, fltChars, if_neg hm]
  have hbody : fltBody m e =
      natChars m.natAbs ++ List.replicate e.toNat '0' ++ ['.', '0'] := by
    rw [fltBody, if_pos (by constructor <;> omega), if_pos he]
  rw [hbody]
  refine ⟨(if m < 0 then ['-'] else []) ++ (natChars m.natAbs ++
    List.replicate e.toNat '0'), ?_⟩
  simp

theorem claim_C4_amended_witness :
    ((1 : Int) ≠ 0 ∧ (0 : Int) ≤ 0 ∧
      ((natChars (1 : Int).natAbs).length : Int) + 0 ≤ 16) ∧
    (∃ pre, numChars (.flt 1 0) = pre ++ ['.', '0']) ∧
    (1 ≤ 7 → (natChars 7).head? ≠ some '0') :=
  ⟨⟨by decide, by decide, by decide⟩,
    (claim_C4_amended).2.2 1 0 (by decide) (by decide) (by decide),
    ((claim_C4_amended).1 7).2.2⟩

/-! ### Order facts about the string comparator -/

theorem cmpNatO_lt_iff {a b : Nat} : cmpNatO a b = .lt ↔ a < b := by
  unfold cmpNatO
  split_ifs with h1 h2
  · exact ⟨fun _ => h1, fun _ => rfl⟩
  · exact ⟨fun hx => (nomatch hx), fun hx => absurd hx h1⟩
  · exact ⟨fun hx => (nomatch hx), fun hx => absurd hx h1⟩

theorem cmpNatO_eq_iff {a b : Nat} : cmpNatO a b = .eq ↔ a = b := by
  unfold cmpNatO
  split_ifs with h1 h2
  · exact ⟨fun hx => (nomatch hx), fun hx => absurd hx (by omega)⟩
  · exact ⟨fun _ => h2, fun _ => rfl⟩
  · exact ⟨fun hx => (nomatch hx), fun hx => absurd hx h2⟩

theorem cmpNatO_gt_iff {a b : Nat} : cmpNatO a b = .gt ↔ b < a := by
  unfold cmpNatO
  split_ifs with h1 h2
  · exact ⟨fun hx => (nomatch hx), fun hx => absurd hx (by omega)⟩
  · exact ⟨fun hx => (nomatch hx), fun hx => absurd hx (by omega)⟩
  · exact ⟨fun _ => (by omega), fun _ => rfl⟩

theorem cmpNatO_swap (a b : Nat) : cmpNatO a b = (cmpNatO b a).swap := by
  rcases Nat.lt_trichotomy a b with h | rfl | h
  · rw [cmpNatO_lt_iff.mpr h, show cmpNatO b a = .gt from cmpNatO_gt_iff.mpr h]
    rfl
  · rw [show cmpNatO a a = .eq from cmpNatO_eq_iff.mpr rfl]
    rfl
  · rw [cmpNatO_gt_iff.mpr h, show cmpNatO b a = .lt from cmpNatO_lt_iff.mpr h]
    rfl

theorem cmpNatO_lt_trans {a b c : Nat} (h1 : cmpNatO a b = .lt)
    (h2 : cmpNatO b c = .lt) : cmpNatO a c = .lt := by
  rw [cmpNatO_lt_iff] at *
  omega

theorem charToNat_inj {a b : Char} (h : a.toNat = b.toNat) : a = b :=
  Char.eq_of_val_eq (UInt32.ext h)

theorem cmpChars_eq_iff : ∀ {l1 l2 : List Char}, cmpChars l1 l2 = .eq ↔ l1 = l2
  | [], [] => by simp [cmpChars]
  | [], _ :: _ => by simp [cmpChars]
  | _ :: _, [] => by simp [cmpChars]
  | a :: as1, b :: bs => by
    rw [cmpChars]
    rcases h : cmpNatO a.toNat b.toNat with _ | _ | _
    · simp only [List.cons.injEq]
      constructor
      · intro h2; cases h2
      · rintro ⟨rfl, rfl⟩
        rw [show cmpNatO a.toNat a.toNat = .eq from cmpNatO_eq_iff.mpr rfl] at h
        cases h
    · have hab : a = b := charToNat_inj (cmpNatO_eq_iff.mp h)
      simp only [List.cons.injEq, hab, true_and]
      exact cmpChars_eq_iff
    · simp only [List.cons.injEq]
      constructor
      · intro h2; cases h2
      · rintro ⟨rfl, rfl⟩
        rw [show cmpNatO a.toNat a.toNat = .eq from cmpNatO_eq_iff.mpr rfl] at h
        cases h

theorem cmpChars_swap : ∀ (l1 l2 : List Char), cmpChars l1 l2 = (cmpChars l2 l1).swap
  | [], [] => rfl
  | [], _ :: _ => rfl
  | _ :: _, [] => rfl
  | a :: as1, b :: bs => by
    rw [cmpChars, cmpChars, cmpNatO_swap a.toNat b.toNat]
    rcases cmpNatO b.toNat a.toNat with _ | _ | _
    · rfl
    · exact cmpChars_swap as1 bs
    · rfl

theorem cmpChars_lt_trans :
    ∀ {l1 l2 l3 : List Char}, cmpChars l1 l2 = .lt → cmpChars l2 l3 = .lt →
      cmpChars l1 l3 = .lt
  | [], [], _ :: _, _, _ => rfl
  | [], _ :: _, _ :: _, _, _ => rfl
  | [], [], [], h, _ => by cases h
  | [], _ :: _, [], _, h => by cases h
  | _ :: _, [], _, h, _ => by cases h
  | _ :: _, _ :: _, [], _, h => by cases h
  | a :: as1, b :: bs, c :: cs, h1, h2 => by
    rw [cmpChars] at h1 h2 ⊢
    rcases hab : cmpNatO a.toNat b.toNat with _ | _ | _ <;> rw [hab] at h1 <;>
      rcases hbc : cmpNatO b.toNat c.toNat with _ | _ | _ <;> rw [hbc] at h2
    · rw [cmpNatO_lt_trans hab hbc]
    · rw [← cmpNatO_eq_iff.mp hbc, hab]
    · cases h2
    · rw [cmpNatO_eq_iff.mp hab, hbc]
    · rw [cmpNatO_eq_iff.mp hab, cmpNatO_eq_iff.mp hbc,
        show cmpNatO c.toNat c.toNat = .eq from cmpNatO_eq_iff.mpr rfl]
      exact cmpChars_lt_trans h1 h2
    · cases h2
    · cases h1
    · cases h1
    · cases h1

theorem cmpString_eq_iff {a b : String} : cmpString a b = .eq ↔ a = b := by
  rw [cmpString, cmpChars_eq_iff]
  constructor
  · intro h
    cases a
    cases b
    exact congrArg String.mk h
  · intro h
    rw [h]

theorem cmpString_swap (a b : String) : cmpString a b = (cmpString b a).swap :=
  cmpChars_swap a.data b.data

theorem cmpString_lt_trans {a b c : String} (h1 : cmpString a b = .lt)
    (h2 : cmpString b c = .lt) : cmpString a c = .lt :=
  cmpChars_lt_trans h1 h2

theorem cmpString_gt_lt {a b : String} (h : cmpString a b = .gt) :
    cmpString b a = .lt := by
  rw [cmpString_swap] at h
  cases h2 : cmpString b a <;> rw [h2] at h <;> first | rfl | cases h

/-! ### The sorted object map built by `deep_sort` -/

/-- Strict key order on object entries. -/
def entLt (a b : String × Value) : Prop := cmpString a.1 b.1 = .lt

theorem objInsert_mem {k : String} {v : Value} :
    ∀ {l : List (String × Value)} {p}, p ∈ objInsert k v l → p = (k, v) ∨ p ∈ l := by
  intro l
  induction l with
  | nil => intro p hp; rcases hp with _ | ⟨_, h0⟩; exact .inl rfl; cases h0
  | cons e rest ih =>
    intro p hp
    rcases e with ⟨k2, v2⟩
    rw [objInsert] at hp
    rcases h : cmpString k k2 with _ | _ | _ <;> rw [h] at hp
    · rcases hp with _ | ⟨_, hp⟩
      · exact .inl rfl
      · exact .inr hp
    · rcases hp with _ | ⟨_, hp⟩
      · exact .inl rfl
      · exact .inr (List.mem_cons_of_mem _ hp)
    · rcases hp with _ | ⟨_, hp⟩
      · exact .inr (List.mem_cons_self _ _)
      · rcases ih hp with h1 | h1
        · exact .inl h1
        · exact .inr (List.mem_cons_of_mem _ h1)

theorem sorted_objInsert {k : String} {v : Value} :
    ∀ {l : List (String × Value)}, l.Pairwise entLt →
      (objInsert k v l).Pairwise entLt := by
  intro l
  induction l with
  | nil => intro; simp [objInsert]
  | cons e rest ih =>
    intro hs
    rcases e with ⟨k2, v2⟩
    rcases List.pairwise_cons.1 hs with ⟨hhead, htail⟩
    rw [objInsert]
    rcases h : cmpString k k2 with _ | _ | _
    · refine List.pairwise_cons.2 ⟨?_, hs⟩
      intro p hp
      rcases hp with _ | ⟨_, hp⟩
      · exact h
      · exact cmpString_lt_trans h (hhead p hp)
    · refine List.pairwise_cons.2 ⟨?_, htail⟩
      intro p hp
      rw [show k = k2 from cmpString_eq_iff.mp h]
      exact hhead p hp
    · refine List.pairwise_cons.2 ⟨?_, ih htail⟩
      intro p hp
      rcases objInsert_mem hp with rfl | hp2
      · exact cmpString_gt_lt h
      · exact hhead p hp2

theorem objInsert_perm_fresh {k : String} {v : Value} :
    ∀ {l : List (String × Value)}, k ∉ l.map Prod.fst →
      List.Perm (objInsert k v l) ((k, v) :: l) := by
  intro l
  induction l with
  | nil => intro; rfl
  | cons e rest ih =>
    intro hk
    rcases e with ⟨k2, v2⟩
    simp only [List.map_cons, List.mem_cons] at hk
    push_neg at hk
    rw [objInsert]
    rcases h : cmpString k k2 with _ | _ | _
    · rfl
    · exact absurd (cmpString_eq_iff.mp h) hk.1
    · exact ((ih hk.2).cons (k2, v2)).trans (List.Perm.swap (k, v) (k2, v2) rest)

theorem foldl_objInsert_perm :
    ∀ (l acc : List (String × Value)),
      (acc.map Prod.fst ++ l.map Prod.fst).Nodup →
      List.Perm (List.foldl (fun acc kv => objInsert kv.1 kv.2 acc) acc l)
        (acc ++ l) := by
  intro l
  induction l with
  | nil => intro acc _; simp
  | cons e rest ih =>
    intro acc hnd
    rcases e with ⟨k, v⟩
    simp only [List.map_cons] at hnd
    rw [List.foldl_cons]
    have hk : k ∉ acc.map Prod.fst := by
      rcases List.nodup_append.1 hnd with ⟨_, _, hdisj⟩
      intro hmem
      exact hdisj hmem (List.mem_cons_self _ _)
    have hperm : List.Perm (objInsert k v acc) ((k, v) :: acc) :=
      objInsert_perm_fresh hk
    have hkeys : List.Perm ((objInsert k v acc).map Prod.fst)
        (k :: acc.map Prod.fst) := hperm.map Prod.fst
    have hnd1 : ((k :: acc.map Prod.fst) ++ rest.map Prod.fst).Nodup :=
      List.Perm.nodup List.perm_middle hnd
    have hnd2 : ((objInsert k v acc).map Prod.fst ++ rest.map Prod.fst).Nodup :=
      List.Perm.nodup (hkeys.symm.append_right _) hnd1
    refine (ih (objInsert k v acc) hnd2).trans ?_
    refine (hperm.append_right rest).trans ?_
    exact List.perm_middle.symm

theorem buildSorted_perm {l : List (String × Value)}
    (h : (l.map Prod.fst).Nodup) : List.Perm (buildSorted l) l := by
  have := foldl_objInsert_perm l [] (by simpa using h)
  simpa [buildSorted] using this

theorem buildSorted_sorted (l : List (String × Value)) :
    (buildSorted l).Pairwise entLt := by
  suffices h : ∀ acc : List (String × Value), acc.Pairwise entLt →
      (List.foldl (fun acc kv => objInsert kv.1 kv.2 acc) acc l).Pairwise entLt by
    exact h [] (by simp)
  induction l with
  | nil => intro acc ha; simpa using ha
  | cons e rest ih =>
    intro acc ha
    rw [List.foldl_cons]
    exact ih _ (sorted_objInsert ha)

theorem entLt_antisymm : ∀ {a b : String × Value}, entLt a b → entLt b a → a = b := by
  intro a b h1 h2
  rw [entLt, cmpString_swap] at h2
  rw [entLt] at h1
  rw [h1] at h2
  cases h2

theorem eq_of_perm_of_sorted_entLt {l1 l2 : List (String × Value)}
    (hp : List.Perm l1 l2) (h1 : l1.Pairwise entLt) (h2 : l2.Pairwise entLt) :
    l1 = l2 :=
  @List.eq_of_perm_of_sorted _ entLt ⟨fun _ _ ha hb => entLt_antisymm ha hb⟩
    _ _ hp h1 h2

theorem buildSorted_perm_invariant {l1 l2 : List (String × Value)}
    (hp : List.Perm l1 l2) (h1 : (l1.map Prod.fst).Nodup) :
    buildSorted l1 = buildSorted l2 := by
  have h2 : (l2.map Prod.fst).Nodup := (hp.map Prod.fst).nodup h1
  exact eq_of_perm_of_sorted_entLt
    ((buildSorted_perm h1).trans (hp.trans (buildSorted_perm h2).symm))
    (buildSorted_sorted l1) (buildSorted_sorted l2)

theorem deepSortEntries_eq_map (l : List (String × Value)) :
    deepSortEntries l = l.map (fun kv => (kv.1, deep_sort kv.2)) := by
  induction l with
  | nil => rfl
  | cons e rest ih =>
    rcases e with ⟨k, v⟩
    rw [deepSortEntries, ih]
    rfl

theorem deepSortEntries_keys (l : List (String × Value)) :
    (deepSortEntries l).map Prod.fst = l.map Prod.fst := by
  rw [deepSortEntries_eq_map, List.map_map]
  rfl

/-- C1 helper: `deep_sort` maps key-permuted objects with unique keys to
the same value. -/
theorem deep_sort_key_perm {l1 l2 : List (String × Value)}
    (hperm : List.Perm l1 l2) (hnodup : (l1.map Prod.fst).Nodup) :
    deep_sort (.obj l1) = deep_sort (.obj l2) := by
  rw [deep_sort_obj, deep_sort_obj]
  have hp : List.Perm (deepSortEntries l1) (deepSortEntries l2) := by
    rw [deepSortEntries_eq_map, deepSortEntries_eq_map]
    exact hperm.map _
  have hn : ((deepSortEntries l1).map Prod.fst).Nodup := by
    rw [deepSortEntries_keys]; exact hnodup
  rw [buildSorted_perm_invariant hp hn]

/-- C1: for every Object and every permutation of its (unique) keys, in
either mode, `canonicalize` returns the identical string and
`semantic_hash` the identical hash: both are functions of the key-value
mapping only, not of insertion order. -/
theorem claim_C1_key_order_independence (l1 l2 : List (String × Value))
    (strict : Bool) (hperm : List.Perm l1 l2)
    (hnodup : (l1.map Prod.fst).Nodup) :
    canonicalize (.obj l1) strict = canonicalize (.obj l2) strict ∧
    semantic_hash (.obj l1) = semantic_hash (.obj l2) := by
  have hds := deep_sort_key_perm hperm hnodup
  constructor
  · rw [canonicalize_obj_ok, canonicalize_obj_ok, hds]
  · rw [semantic_hash, semantic_hash, canonicalize_obj_ok, canonicalize_obj_ok,
      hds]

theorem claim_C1_witness :
    List.Perm [(("a" : String), Value.num (.pos 1)), ("b", Value.num (.pos 2))]
      [(("b" : String), Value.num (.pos 2)), ("a", Value.num (.pos 1))] ∧
    (([(("a" : String), Value.num (.pos 1)), ("b", Value.num (.pos 2))].map
      Prod.fst).Nodup) ∧
    canonicalize (.obj [("a", .num (.pos 1)), ("b", .num (.pos 2))]) true =
      canonicalize (.obj [("b", .num (.pos 2)), ("a", .num (.pos 1))]) true ∧
    semantic_hash (.obj [("a", .num (.pos 1)), ("b", .num (.pos 2))]) =
      semantic_hash (.obj [("b", .num (.pos 2)), ("a", .num (.pos 1))]) :=
  ⟨by decide, by decide,
    (claim_C1_key_order_independence _ _ true (by decide) (by decide)).1,
    (claim_C1_key_order_independence _ _ true (by decide) (by decide)).2⟩

/-! ### Order facts about the array element comparator -/

theorem cmpQ_lt_iff {a b : ℚ} : cmpQ a b = .lt ↔ a < b := by
  unfold cmpQ
  split_ifs with h1 h2
  · exact ⟨fun _ => h1, fun _ => rfl⟩
  · exact ⟨fun hx => (nomatch hx), fun hx => absurd hx h1⟩
  · exact ⟨fun hx => (nomatch hx), fun hx => absurd hx h1⟩

theorem cmpQ_eq_iff {a b : ℚ} : cmpQ a b = .eq ↔ a = b := by
  unfold cmpQ
  split_ifs with h1 h2
  · exact ⟨fun hx => (nomatch hx), fun hx => absurd hx (by rw [hx] at h1; exact absurd h1 (lt_irrefl b))⟩
  · exact ⟨fun _ => h2, fun _ => rfl⟩
  · exact ⟨fun hx => (nomatch hx), fun hx => absurd hx h2⟩

theorem cmpQ_gt_iff {a b : ℚ} : cmpQ a b = .gt ↔ b < a := by
  unfold cmpQ
  split_ifs with h1 h2
  · exact ⟨fun hx => (nomatch hx), fun hx => absurd h1 (not_lt_of_gt hx)⟩
  · exact ⟨fun hx => (nomatch hx), fun hx => absurd hx (by rw [h2]; exact lt_irrefl b)⟩
  · refine ⟨fun _ => ?_, fun _ => rfl⟩
    rcases lt_trichotomy a b with h | h | h
    · exact absurd h h1
    · exact absurd h h2
    · exact h

theorem cmpQ_swap (a b : ℚ) : cmpQ a b = (cmpQ b a).swap := by
  rcases lt_trichotomy a b with h | rfl | h
  · rw [cmpQ_lt_iff.mpr h, show cmpQ b a = .gt from cmpQ_gt_iff.mpr h]
    rfl
  · rw [show cmpQ a a = .eq from cmpQ_eq_iff.mpr rfl]
    rfl
  · rw [cmpQ_gt_iff.mpr h, show cmpQ b a = .lt from cmpQ_lt_iff.mpr h]
    rfl

theorem cmpQ_ne_gt_iff {a b : ℚ} : cmpQ a b ≠ .gt ↔ a ≤ b := by
  constructor
  · intro h
    rcases le_or_lt a b with h2 | h2
    · exact h2
    · exact absurd (cmpQ_gt_iff.mpr h2) h
  · intro h hgt
    exact absurd (cmpQ_gt_iff.mp hgt) (not_lt_of_ge h)

theorem cmpBool_swap (a b : Bool) : cmpBool a b = (cmpBool b a).swap := by
  cases a <;> cases b <;> rfl

theorem cmpBool_eq_iff {a b : Bool} : cmpBool a b = .eq ↔ a = b := by
  cases a <;> cases b <;> simp [cmpBool]

/-- The non-strict order induced by the `sort_by` comparator (Rust's
`sort_by` sorts so that the comparator never returns `Greater` on an
adjacent pair, read left to right). -/
def leV (a b : Value) : Prop := cmpVal a b ≠ .gt

instance : DecidableRel leV := fun _ _ => instDecidableNot

theorem cmpVal_swap (a b : Value) : cmpVal a b = (cmpVal b a).swap := by
  cases a <;> cases b <;> first
    | rfl
    | exact cmpChars_swap _ _
    | exact cmpQ_swap _ _
    | exact cmpBool_swap _ _

theorem cmpVal_refl (a : Value) : cmpVal a a = .eq := by
  cases a with
  | str s => exact cmpChars_eq_iff.mpr rfl
  | num n => exact cmpQ_eq_iff.mpr rfl
  | bool b => cases b <;> rfl
  | null => rfl
  | arr l => rfl
  | obj l => rfl

theorem leV_refl (a : Value) : leV a a := by
  rw [leV, cmpVal_refl]
  intro h
  cases h

theorem leV_total {a b : Value} (h : ¬leV a b) : leV b a := by
  rw [leV, not_not] at h
  rw [leV, cmpVal_swap, h]
  intro h2
  cases h2

theorem leV_antisymm_of_ties {a b : Value} (h1 : leV a b) (h2 : leV b a)
    (hties : cmpVal a b = .eq → a = b) : a = b := by
  rw [leV, cmpVal_swap] at h2
  rw [leV] at h1
  apply hties
  cases hc : cmpVal a b
  · rw [hc] at h2; exact absurd rfl h2
  · rfl
  · rw [hc] at h1; exact absurd rfl h1

theorem cmpChars_ne_gt {l1 l2 : List Char} (h : cmpChars l1 l2 ≠ .gt) :
    cmpChars l1 l2 = .lt ∨ l1 = l2 := by
  cases hc : cmpChars l1 l2
  · exact .inl rfl
  · exact .inr (cmpChars_eq_iff.mp hc)
  · exact absurd hc h

theorem cmpChars_le_trans {l1 l2 l3 : List Char} (h1 : cmpChars l1 l2 ≠ .gt)
    (h2 : cmpChars l2 l3 ≠ .gt) : cmpChars l1 l3 ≠ .gt := by
  rcases cmpChars_ne_gt h1 with h1 | rfl
  · rcases cmpChars_ne_gt h2 with h2 | rfl
    · rw [cmpChars_lt_trans h1 h2]; intro h; cases h
    · rw [h1]; intro h; cases h
  · exact h2

theorem leV_trans_of_discr {a b c : Value} (hab : discr a = discr b)
    (hbc : discr b = discr c) (h1 : leV a b) (h2 : leV b c) : leV a c := by
  rw [leV] at *
  cases a <;> cases b <;> cases c <;>
    try (simp only [discr] at hab hbc; omega)
  case null.null.null =>
    intro h
    simp [cmpVal] at h
  case bool.bool.bool b1 b2 b3 =>
    cases b1 <;> cases b2 <;> cases b3 <;> simp_all [cmpVal, cmpBool]
  case num.num.num n1 n2 n3 =>
    simp only [cmpVal, partialCmpF64, Option.getD_some] at h1 h2 ⊢
    rw [cmpQ_ne_gt_iff] at h1 h2 ⊢
    exact le_trans h1 h2
  case str.str.str s1 s2 s3 =>
    simp only [cmpVal, cmpString] at h1 h2 ⊢
    exact cmpChars_le_trans h1 h2
  case arr.arr.arr l1 l2 l3 =>
    intro h
    simp [cmpVal] at h
  case obj.obj.obj l1 l2 l3 =>
    intro h
    simp [cmpVal] at h

/-! ### The stable sort of `deep_sort`'s homogeneous-array branch -/

theorem ordInsertBy_perm {α : Type _} (cmp : α → α → Ordering) (a : α) :
    ∀ l : List α, List.Perm (ordInsertBy cmp a l) (a :: l) := by
  intro l
  induction l with
  | nil => rfl
  | cons b t ih =>
    rw [ordInsertBy]
    split_ifs with h
    · exact (ih.cons b).trans (List.Perm.swap a b t)
    · rfl

theorem insSortBy_perm {α : Type _} (cmp : α → α → Ordering) :
    ∀ l : List α, List.Perm (insSortBy cmp l) l := by
  intro l
  induction l with
  | nil => rfl
  | cons a t ih => exact (ordInsertBy_perm cmp a (insSortBy cmp t)).trans (ih.cons a)

theorem ordInsertBy_mem {α : Type _} {cmp : α → α → Ordering} {a x : α} :
    ∀ {l : List α}, x ∈ ordInsertBy cmp a l → x = a ∨ x ∈ l := by
  intro l
  induction l with
  | nil =>
    intro hx
    rcases hx with _ | ⟨_, h0⟩
    · exact .inl rfl
    · cases h0
  | cons b t ih =>
    intro hx
    rw [ordInsertBy] at hx
    split_ifs at hx with h
    · rcases hx with _ | ⟨_, hx⟩
      · exact .inr (List.mem_cons_self _ _)
      · rcases ih hx with h1 | h1
        · exact .inl h1
        · exact .inr (List.mem_cons_of_mem _ h1)
    · rcases hx with _ | ⟨_, hx⟩
      · exact .inl rfl
      · exact .inr hx

theorem pairwise_ordInsertBy {a : Value} :
    ∀ {l : List Value}, l.Pairwise leV →
      (∀ x ∈ l, ∀ y ∈ l, leV a x → leV x y → leV a y) →
      (ordInsertBy cmpVal a l).Pairwise leV := by
  intro l
  induction l with
  | nil =>
    intro _ _
    simp [ordInsertBy]
  | cons b t ih =>
    intro hs htr
    rcases List.pairwise_cons.1 hs with ⟨hhead, htail⟩
    rw [ordInsertBy]
    split_ifs with h
    · have hba : leV b a := by
        rw [leV, cmpVal_swap, h]
        intro h2
        cases h2
      refine List.pairwise_cons.2 ⟨?_, ih htail ?_⟩
      · intro p hp
        rcases ordInsertBy_mem hp with rfl | hp2
        · exact hba
        · exact hhead p hp2
      · intro x hx y hy
        exact htr x (List.mem_cons_of_mem _ hx) y (List.mem_cons_of_mem _ hy)
    · have hab : leV a b := h
      refine List.pairwise_cons.2 ⟨?_, hs⟩
      intro p hp
      rcases hp with _ | ⟨_, hp⟩
      · exact hab
      · exact htr b (List.mem_cons_self _ _) p (List.mem_cons_of_mem _ hp)
          hab (hhead p hp)

theorem pairwise_insSortBy :
    ∀ {l : List Value},
      (∀ x ∈ l, ∀ y ∈ l, ∀ z ∈ l, leV x y → leV y z → leV x z) →
      (insSortBy cmpVal l).Pairwise leV := by
  intro l
  induction l with
  | nil => intro _; simp [insSortBy]
  | cons a t ih =>
    intro htr
    rw [insSortBy]
    apply pairwise_ordInsertBy
    · exact ih fun x hx y hy z hz => htr x (List.mem_cons_of_mem _ hx)
        y (List.mem_cons_of_mem _ hy) z (List.mem_cons_of_mem _ hz)
    · intro x hx y hy
      have hx2 : x ∈ t := (insSortBy_perm cmpVal t).subset hx
      have hy2 : y ∈ t := (insSortBy_perm cmpVal t).subset hy
      exact htr a (List.mem_cons_self _ _) x (List.mem_cons_of_mem _ hx2)
        y (List.mem_cons_of_mem _ hy2)

theorem eq_of_perm_of_sorted_leV :
    ∀ {l1 l2 : List Value}, List.Perm l1 l2 → l1.Pairwise leV →
      l2.Pairwise leV →
      (∀ a ∈ l1, ∀ b ∈ l1, cmpVal a b = .eq → a = b) → l1 = l2 := by
  intro l1
  induction l1 with
  | nil =>
    intro l2 hp _ _ _
    exact hp.nil_eq
  | cons a t1 ih =>
    intro l2 hp hs1 hs2 hanti
    cases l2 with
    | nil => cases hp.symm.nil_eq
    | cons b t2 =>
      rcases List.pairwise_cons.1 hs1 with ⟨hh1, ht1⟩
      rcases List.pairwise_cons.1 hs2 with ⟨hh2, ht2⟩
      have hainl2 := hp.subset (List.mem_cons_self a t1)
      have hbinl1 := hp.symm.subset (List.mem_cons_self b t2)
      have h1 : leV a b := by
        rcases List.mem_cons.1 hbinl1 with heq | hb
        · rw [heq]
          exact leV_refl a
        · exact hh1 b hb
      have h2 : leV b a := by
        rcases List.mem_cons.1 hainl2 with heq | ha
        · rw [heq]
          exact leV_refl b
        · exact hh2 a ha
      have hab : a = b := leV_antisymm_of_ties h1 h2
        (fun hc => hanti a (List.mem_cons_self a t1) b hbinl1 hc)
      subst hab
      have hp2 : List.Perm t1 t2 := (List.perm_cons a).1 hp
      rw [ih hp2 ht1 ht2 fun x hx y hy =>
        hanti x (List.mem_cons_of_mem _ hx) y (List.mem_cons_of_mem _ hy)]

theorem deep_sort_prim {v : Value} (h : isPrimV v = true) : deep_sort v = v := by
  cases v <;> first | rfl | (simp [isPrimV] at h)

theorem deepSortList_prim : ∀ {l : List Value}, l.all isPrimV = true →
    deepSortList l = l := by
  intro l
  induction l with
  | nil => intro _; rfl
  | cons a t ih =>
    intro h
    rw [List.all_cons, Bool.and_eq_true] at h
    rw [deepSortList, deep_sort_prim h.1, ih h.2]

theorem deep_sort_arr_homog {l : List Value} (hprim : l.all isPrimV = true)
    (hne : l ≠ []) (hhomog : ∀ x ∈ l, ∀ y ∈ l, discr x = discr y) :
    deep_sort (.arr l) = .arr (insSortBy cmpVal l) := by
  rcases l with _ | ⟨a, t⟩
  · exact absurd rfl hne
  · have h3 : ((a :: t).all fun v => discr v == discr ((a :: t).headD .null)) =
        true := by
      rw [List.headD_cons, List.all_eq_true]
      intro x hx
      exact beq_iff_eq.mpr (hhomog x hx a (List.mem_cons_self a t))
    rw [deep_sort, deepSortList_prim hprim]
    simp only [hprim, List.length_cons, h3, if_true]
    simp

/-- C3 counterexample: `[1, 1.0]` is an array of primitives of the single
variant Number, `[1.0, 1]` is a permutation of it, the two elements
compare `Equal` under the f64 comparator, yet the canonical forms of
objects containing the two arrays differ (the stable sort keeps
comparator-ties in encounter order and `1` and `1.0` serialize
differently). -/
theorem claim_C3_counterexample :
    ([Value.num (.pos 1), Value.num (.flt 1 0)].all isPrimV = true) ∧
    (∀ x ∈ [Value.num (.pos 1), Value.num (.flt 1 0)],
      ∀ y ∈ [Value.num (.pos 1), Value.num (.flt 1 0)], discr x = discr y) ∧
    List.Perm [Value.num (.pos 1), Value.num (.flt 1 0)]
      [Value.num (.flt 1 0), Value.num (.pos 1)] ∧
    cmpVal (Value.num (.pos 1)) (Value.num (.flt 1 0)) = .eq ∧
    canonicalize (.obj [("a", .arr [.num (.pos 1), .num (.flt 1 0)])]) true ≠
      canonicalize (.obj [("a", .arr [.num (.flt 1 0), .num (.pos 1)])]) true :=
  ⟨by decide, by decide, by decide, by decide, by decide⟩

/-- C3 amended: for an array of primitives of one single variant in which
comparator-equal elements are identical (no ties between distinct
elements), every permutation canonicalizes identically inside an object;
when distinct elements tie under the comparator (such as integer `1` and
float `1.0`, or two large integers rounding to the same double), the
stable sort preserves their encounter order and permutations may yield
different canonical forms. -/
theorem claim_C3_amended (key : String) (strict : Bool) (l1 l2 : List Value)
    (hprim : l1.all isPrimV = true)
    (hhomog : ∀ x ∈ l1, ∀ y ∈ l1, discr x = discr y)
    (hperm : List.Perm l1 l2)
    (hties : ∀ a ∈ l1, ∀ b ∈ l1, cmpVal a b = .eq → a = b) :
    canonicalize (.obj [(key, .arr l1)]) strict =
      canonicalize (.obj [(key, .arr l2)]) strict := by
  suffices hds : deep_sort (.arr l1) = deep_sort (.arr l2) by
    rw [canonicalize_obj_ok, canonicalize_obj_ok, deep_sort_obj, deep_sort_obj]
    simp only [deepSortEntries]
    rw [hds]
  rcases eq_or_ne l1 [] with rfl | hne
  · rw [← hperm.nil_eq]
  · have hprim2 : l2.all isPrimV = true := by
      rw [List.all_eq_true] at hprim ⊢
      intro x hx
      exact hprim x (hperm.symm.subset hx)
    have hne2 : l2 ≠ [] := by
      intro h
      rw [h] at hperm
      exact hne hperm.symm.nil_eq.symm
    have hhomog2 : ∀ x ∈ l2, ∀ y ∈ l2, discr x = discr y := fun x hx y hy =>
      hhomog x (hperm.symm.subset hx) y (hperm.symm.subset hy)
    rw [deep_sort_arr_homog hprim hne hhomog,
      deep_sort_arr_homog hprim2 hne2 hhomog2]
    have hsort : insSortBy cmpVal l1 = insSortBy cmpVal l2 := by
      apply eq_of_perm_of_sorted_leV
      · exact (insSortBy_perm cmpVal l1).trans
          (hperm.trans (insSortBy_perm cmpVal l2).symm)
      · exact pairwise_insSortBy fun x hx y hy z hz h1 h2 =>
          leV_trans_of_discr (hhomog x hx y hy) (hhomog y hy z hz) h1 h2
      · exact pairwise_insSortBy fun x hx y hy z hz h1 h2 =>
          leV_trans_of_discr (hhomog2 x hx y hy) (hhomog2 y hy z hz) h1 h2
      · intro a ha b hb hc
        exact hties a ((insSortBy_perm cmpVal l1).subset ha)
          b ((insSortBy_perm cmpVal l1).subset hb) hc
    rw [hsort]

theorem claim_C3_amended_witness :
    ([Value.num (.pos 2), Value.num (.pos 1)].all isPrimV = true) ∧
    List.Perm [Value.num (.pos 2), Value.num (.pos 1)]
      [Value.num (.pos 1), Value.num (.pos 2)] ∧
    canonicalize (.obj [("a", .arr [.num (.pos 2), .num (.pos 1)])]) true =
      canonicalize (.obj [("a", .arr [.num (.pos 1), .num (.pos 2)])]) true :=
  ⟨by decide, by decide,
    claim_C3_amended "a" true [Value.num (.pos 2), Value.num (.pos 1)]
      [Value.num (.pos 1), Value.num (.pos 2)]
      (by decide) (by decide) (by decide) (by decide)⟩

/-! ### C6: verification -/

/-- The digest string `semantic_hash` computes for an object. -/
def hashOfObj (es : List (String × Value)) : String :=
  String.mk (hexOfBytes (sha256Bytes (utf8Bytes
    (String.mk (serVal (deep_sort (.obj es)))))))

theorem length_mk (l : List Char) : (String.mk l).length = l.length := rfl

theorem semantic_hash_obj (es : List (String × Value)) :
    semantic_hash (.obj es) = .ok (hashOfObj es) := by
  rw [semantic_hash, canonicalize_obj_ok]
  rfl

/-- The single-key objects used to exhibit a SHA-256 collision by
counting: one for every key length, so there are infinitely many of them,
all well-formed (every one is a value `serde_json` can build). -/
def keyObj (n : Nat) : Value :=
  .obj [(String.mk (List.replicate n 'a'), .null)]

/-- The hex digest `semantic_hash` computes for `keyObj n`. -/
def keyHash (n : Nat) : String :=
  hashOfObj [(String.mk (List.replicate n 'a'), .null)]

theorem wf_keyObj (n : Nat) : wfValue (keyObj n) = true := by
  rw [keyObj, wfValue, wfValueEntries, wfValueEntries]
  simp [wfValue]

theorem semantic_hash_keyObj (n : Nat) :
    semantic_hash (keyObj n) = .ok (keyHash n) :=
  semantic_hash_obj [(String.mk (List.replicate n 'a'), .null)]

theorem deep_sort_keyObj (n : Nat) : deep_sort (keyObj n) = keyObj n := by
  rw [keyObj, deep_sort_obj]
  simp only [deepSortEntries, buildSorted, List.foldl_cons, List.foldl_nil,
    objInsert]
  rw [deep_sort]

theorem canonicalize_keyObj (n : Nat) :
    canonicalize (keyObj n) true =
      .ok (String.mk (serVal (deep_sort (keyObj n)))) := by
  rw [keyObj, canonicalize_obj_ok]

theorem escChars_replicate (n : Nat) :
    escChars (List.replicate n 'a') = List.replicate n 'a' := by
  induction n with
  | zero => rfl
  | succ k ih =>
    rw [List.replicate_succ, escChars, ih]
    rfl

theorem serVal_keyObj (n : Nat) :
    serVal (deep_sort (keyObj n)) =
      (lbrace :: ((dquote :: List.replicate n 'a' ++ [dquote]) ++
        ':' :: ['n', 'u', 'l', 'l'])) ++ [rbrace] := by
  rw [deep_sort_keyObj, keyObj, serVal, serEntries, serStr]
  have hd : (String.mk (List.replicate n 'a')).data = List.replicate n 'a' := rfl
  rw [hd, escChars_replicate, serVal]

theorem canon_keyObj_length (n : Nat) :
    (serVal (deep_sort (keyObj n))).length = n + 9 := by
  rw [serVal_keyObj]
  simp

/-- Distinct key lengths give distinct canonical strings, so the two
objects are canonically different. -/
theorem canonically_equal_keyObj {n m : Nat} (h : n ≠ m) :
    canonically_equal (keyObj n) (keyObj m) = false := by
  rw [canonically_equal, keyObj, keyObj, canonicalize_obj_ok,
    canonicalize_obj_ok]
  rw [beq_eq_false_iff_ne]
  intro hc
  apply h
  have h2 := congrArg String.data hc
  simp only at h2
  have h3 := congrArg List.length h2
  have h4 := canon_keyObj_length n
  have h5 := canon_keyObj_length m
  rw [keyObj] at h4 h5
  rw [h4, h5] at h3
  omega

theorem finite_char_lists (s : Set Char) (hs : s.Finite) :
    ∀ n : Nat, {l : List Char | l.length = n ∧ ∀ c ∈ l, c ∈ s}.Finite := by
  intro n
  induction n with
  | zero =>
    refine Set.Finite.subset (Set.finite_singleton []) ?_
    intro l hl
    rcases hl with ⟨hlen, _⟩
    rw [Set.mem_singleton_iff]
    exact List.length_eq_zero.mp hlen
  | succ k ih =>
    refine Set.Finite.subset (hs.image2 List.cons ih) ?_
    intro l hl
    rcases hl with ⟨hlen, hmem⟩
    cases l with
    | nil => cases hlen
    | cons c t =>
      refine Set.mem_image2_of_mem (hmem c (List.mem_cons_self _ _)) ?_
      refine ⟨by simpa using hlen, ?_⟩
      intro x hx
      exact hmem x (List.mem_cons_of_mem _ hx)

theorem finite_hexStrings :
    {s : String | s.length = 64 ∧ ∀ c ∈ s.data, isHexChar c = true}.Finite := by
  have hchar : {c : Char | isHexChar c = true}.Finite := by
    refine Set.Finite.subset (List.finite_toSet
      (['0', '1', '2', '3', '4', '5', '6', '7', '8', '9'] ++
       ['a', 'b', 'c', 'd', 'e', 'f'])) ?_
    intro c hc
    rw [Set.mem_setOf_eq, isHexChar] at hc
    simpa using hc
  have hlists := finite_char_lists _ hchar 64
  refine Set.Finite.subset (hlists.image String.mk) ?_
  intro s hs
  rcases hs with ⟨hlen, hmem⟩
  refine ⟨s.data, ⟨hlen, ?_⟩, by cases s; rfl⟩
  intro c hc
  rw [Set.mem_setOf_eq]
  exact hmem c hc

theorem keyHash_mem_hexStrings (n : Nat) : keyHash n ∈
    {s : String | s.length = 64 ∧ ∀ c ∈ s.data, isHexChar c = true} := by
  refine ⟨?_, ?_⟩
  · rw [keyHash, hashOfObj, length_mk, hexOfBytes_length, sha256Bytes_length]
  · rw [keyHash, hashOfObj]
    exact fun c hc => hexOfBytes_isHex _ c hc

theorem keyHash_collision : ∃ n m : Nat, n ≠ m ∧ keyHash n = keyHash m := by
  have : Finite ↥{s : String | s.length = 64 ∧ ∀ c ∈ s.data, isHexChar c = true} :=
    finite_hexStrings.to_subtype
  obtain ⟨n, m, hne, heq⟩ := Finite.exists_ne_map_eq_of_infinite
    (fun n : Nat => (⟨keyHash n, keyHash_mem_hexStrings n⟩ :
      ↥{s : String | s.length = 64 ∧ ∀ c ∈ s.data, isHexChar c = true}))
  exact ⟨n, m, hne, congrArg Subtype.val heq⟩

/-- C6 counterexample: the conjunct "verifying O against the hash of a
canonically different object is Ok(false)" is false as a universal
statement, even restricted to well-formed objects.  This is a proof of
the negation by counting: SHA-256 maps the infinitely many canonical
strings of the `keyObj n` into the finitely many 64-character hex
digests, so two canonically different well-formed objects share a digest,
and verifying one against the other's hash returns Ok(true).  A closed
instance at concrete inputs cannot be exhibited, since it would be an
explicit SHA-256 collision, which is not known for any concrete pair —
which is exactly why the universal conjunct can only fail by counting. -/
theorem claim_C6_counterexample :
    ¬ (∀ O O2 : Value, ∀ s2 : String, wfValue O = true → wfValue O2 = true →
        O.isObject = true → O2.isObject = true →
        canonically_equal O O2 = false → semantic_hash O2 = .ok s2 →
        verify_semantic_hash O s2 = .ok false) := by
  intro hclaim
  obtain ⟨n, m, hne, heq⟩ := keyHash_collision
  have hver := hclaim (keyObj n) (keyObj m) (keyHash m) (wf_keyObj n)
    (wf_keyObj m) rfl rfl (canonically_equal_keyObj hne)
    (semantic_hash_keyObj m)
  rw [verify_semantic_hash, semantic_hash_keyObj n] at hver
  rw [heq] at hver
  simp at hver

/-- C6 amended: `verify_semantic_hash` recomputes the hash and compares
exactly.  For every value — object or not — a hashing failure propagates
as the same error and is never returned as Ok(false), and a successful
hash is compared to `expected` by exact string equality; every Object
verifies its own hash as Ok(true); and a value verifies as Ok(false)
against any expected string other than its own digest — in particular
against the hash of a canonically different object whenever the two
digests differ. -/
theorem claim_C6_amended (v : Value) (expected : String) :
    (∀ e, semantic_hash v = .error e →
      verify_semantic_hash v expected = .error e) ∧
    (∀ h, semantic_hash v = .ok h →
      verify_semantic_hash v expected = .ok (h == expected)) ∧
    (v.isObject = true →
      ∃ h, semantic_hash v = .ok h ∧ verify_semantic_hash v h = .ok true) ∧
    (∀ h, semantic_hash v = .ok h → h ≠ expected →
      verify_semantic_hash v expected = .ok false) := by
  refine ⟨?_, ?_, ?_, ?_⟩
  · intro e he
    rw [verify_semantic_hash, he]
  · intro h hh
    rw [verify_semantic_hash, hh]
  · intro hO
    obtain ⟨es, rfl⟩ := obj_of_isObject hO
    refine ⟨hashOfObj es, semantic_hash_obj es, ?_⟩
    rw [verify_semantic_hash, semantic_hash_obj es]
    show Except.ok (hashOfObj es == hashOfObj es) = Except.ok true
    rw [beq_self_eq_true]
  · intro h hh hne
    rw [verify_semantic_hash, hh]
    show Except.ok (h == expected) = Except.ok false
    rw [beq_eq_false_iff_ne.mpr hne]

theorem claim_C6_amended_witness :
    verify_semantic_hash .null "x" =
      .error (.canonicalizationError "Input must be an object, got \"null\"") ∧
    (∃ h, semantic_hash (.obj [("a", .num (.pos 1))]) = .ok h ∧
      verify_semantic_hash (.obj [("a", .num (.pos 1))]) h = .ok true) ∧
    verify_semantic_hash (.obj [("a", .num (.pos 1))])
      "015abd7f5cc57a2dd94b7590f04ad8084273905ee33ec5cebeae62276a97f863" =
      .ok false :=
  ⟨(claim_C6_amended .null "x").1
      (.canonicalizationError "Input must be an object, got \"null\"") (by decide),
    (claim_C6_amended (.obj [("a", .num (.pos 1))]) "x").2.2.1 (by decide),
    (claim_C6_amended (.obj [("a", .num (.pos 1))])
      "015abd7f5cc57a2dd94b7590f04ad8084273905ee33ec5cebeae62276a97f863").2.2.2
      "015abd7f5cc57a2dd94b7590f04ad8084273905ee33ec5cebeae62276a97f862"
      (by decide) (by decide)⟩

/-! ### A parser for canonical strings

Modelled from the spec: parsing raw input into a Value is outside this
core ("Out of scope (external collaborators): parsing raw input into a
value representation") and is performed by `serde_json::from_str` in the
surrounding code.  The idempotence guarantee of §4.2 quantifies over "the
parsed result of a canonical string", so the parser is modelled here for
the canonical grammar the serializer emits: compact JSON with the escape
set of §6, integers classified as `u64`/`i64` within their ranges, and
decimal/exponent tokens read back as normalized shortest-decimal floats
(mirroring `serde_json` parsing a token to the nearest double, which for
tokens produced by `ryu` recovers exactly the double whose shortest
decimal the token is).  Oversized integer literals, which `serde_json`
would fall back to parsing as doubles, do not occur in canonical output of
well-formed values and are rejected. -/

/-- Numeric value of one hexadecimal digit character. -/
def hexVal (c : Char) : Option Nat :=
  if 48 ≤ c.toNat ∧ c.toNat ≤ 57 then some (c.toNat - 48)
  else if 97 ≤ c.toNat ∧ c.toNat ≤ 102 then some (c.toNat - 87)
  else if 65 ≤ c.toNat ∧ c.toNat ≤ 70 then some (c.toNat - 55)
  else none

/-- Split off the longest prefix of decimal digits. -/
def takeDigits : List Char → List Char × List Char
  | [] => ([], [])
  | c :: rest =>
    if isDigitChar c then
      let p := takeDigits rest
      (c :: p.1, p.2)
    else ([], c :: rest)

/-- Remove factors of ten from the mantissa, moving them into the
exponent: the normalization to shortest-decimal form. -/
def stripZeros : Nat → Nat → Int → Nat × Int
  | 0, m, e => (m, e)
  | fuel + 1, m, e =>
    if m ≠ 0 ∧ m % 10 = 0 then stripZeros fuel (m / 10) (e + 1) else (m, e)

/-- Build the float value for a parsed decimal token. -/
def mkFloat (neg : Bool) (mv : Nat) (e : Int) : Value :=
  let p := stripZeros mv mv e
  if p.1 = 0 then .num (.flt 0 0)
  else .num (.flt (if neg then -(p.1 : Int) else (p.1 : Int)) p.2)

/-- Parse an exponent: optional minus sign and digits. -/
def parseExp (cs : List Char) : Option (Int × List Char) :=
  match cs with
  | [] => none
  | c :: cs2 =>
    if c = '-' then
      let p := takeDigits cs2
      if p.1 = [] then none else some (-(digitsVal p.1 : Int), p.2)
    else
      let p := takeDigits (c :: cs2)
      if p.1 = [] then none else some ((digitsVal p.1 : Int), p.2)

/-- Classify an integer token the way `serde_json` stores it: `u64` below
`2 ^ 64`, negative `i64` down to `-2 ^ 63`. -/
def intResult : Bool → Nat → List Char → Option (Value × List Char)
  | true, n, rest => if n ≤ 2 ^ 63 then some (.num (.neg n), rest) else none
  | false, n, rest => if n < 2 ^ 64 then some (.num (.pos n), rest) else none

/-- Parse the part of a number token after the optional minus sign. -/
def parseNumAbs (neg : Bool) (cs : List Char) : Option (Value × List Char) :=
  let p1 := takeDigits cs
  if p1.1 = [] then none
  else
    match p1.2 with
    | [] => intResult neg (digitsVal p1.1) []
    | c :: cs2 =>
      if c = '.' then
        let p2 := takeDigits cs2
        if p2.1 = [] then none
        else
          match p2.2 with
          | [] =>
            some (mkFloat neg (digitsVal (p1.1 ++ p2.1))
              (-(p2.1.length : Int)), [])
          | d :: cs3 =>
            if d = 'e' then
              match parseExp cs3 with
              | some (ex, rest) =>
                some (mkFloat neg (digitsVal (p1.1 ++ p2.1))
                  (ex - (p2.1.length : Int)), rest)
              | none => none
            else
              some (mkFloat neg (digitsVal (p1.1 ++ p2.1))
                (-(p2.1.length : Int)), d :: cs3)
      else if c = 'e' then
        match parseExp cs2 with
        | some (ex, rest) => some (mkFloat neg (digitsVal p1.1) ex, rest)
        | none => none
      else
        intResult neg (digitsVal p1.1) (c :: cs2)

/-- Parse a number token. -/
def parseNum (cs : List Char) : Option (Value × List Char) :=
  match cs with
  | [] => none
  | c :: cs2 => if c = '-' then parseNumAbs true cs2 else parseNumAbs false (c :: cs2)

/-- Match an expected literal character sequence. -/
def expect : List Char → List Char → Option (List Char)
  | [], cs => some cs
  | e :: es, c :: cs => if c = e then expect es cs else none
  | _ :: _, [] => none

/-- Prepend a character to a string-body parse result. -/
def parseStrCons (c : Char) (res : Option (List Char × List Char)) :
    Option (List Char × List Char) :=
  match res with
  | some (l, r) => some (c :: l, r)
  | none => none

mutual

/-- Parse the body of a string literal after the opening quote, undoing
the escapes of §6, and return the content and the input after the closing
quote. -/
def parseStrChars : List Char → Option (List Char × List Char)
  | [] => none
  | c :: rest =>
    if c = dquote then some ([], rest)
    else if c = bslash then parseEsc rest
    else parseStrCons c (parseStrChars rest)
termination_by structural l => l

/-- Parse one escape sequence after a backslash, then the remaining
string body. -/
def parseEsc : List Char → Option (List Char × List Char)
  | [] => none
  | e :: rest2 =>
    if e = dquote then parseStrCons dquote (parseStrChars rest2)
    else if e = bslash then parseStrCons bslash (parseStrChars rest2)
    else if e = 'b' then parseStrCons (Char.ofNat 8) (parseStrChars rest2)
    else if e = 't' then parseStrCons (Char.ofNat 9) (parseStrChars rest2)
    else if e = 'n' then parseStrCons (Char.ofNat 10) (parseStrChars rest2)
    else if e = 'f' then parseStrCons (Char.ofNat 12) (parseStrChars rest2)
    else if e = 'r' then parseStrCons (Char.ofNat 13) (parseStrChars rest2)
    else if e = 'u' then
      match rest2 with
      | h1 :: h2 :: h3 :: h4 :: rest3 =>
        match hexVal h1, hexVal h2, hexVal h3, hexVal h4 with
        | some a, some b, some c2, some d =>
          parseStrCons (Char.ofNat (((a * 16 + b) * 16 + c2) * 16 + d))
            (parseStrChars rest3)
        | _, _, _, _ => none
      | _ => none
    else none
termination_by structural l => l

end

mutual

/-- Parse one JSON value of the canonical grammar.  The fuel only bounds
the recursion depth; twice the input length plus one always suffices. -/
def parseVal : Nat → List Char → Option (Value × List Char)
  | 0, _ => none
  | fuel + 1, cs =>
    match cs with
    | [] => none
    | c :: rest =>
      if c = 'n' then
        match expect ['u', 'l', 'l'] rest with
        | some r => some (.null, r)
        | none => none
      else if c = 't' then
        match expect ['r', 'u', 'e'] rest with
        | some r => some (.bool true, r)
        | none => none
      else if c = 'f' then
        match expect ['a', 'l', 's', 'e'] rest with
        | some r => some (.bool false, r)
        | none => none
      else if c = dquote then
        match parseStrChars rest with
        | some (l, rest2) => some (.str (String.mk l), rest2)
        | none => none
      else if c = lbrace then
        match rest with
        | [] => none
        | d :: rest2 =>
          if d = rbrace then some (.obj [], rest2)
          else
            match parseEntries fuel (d :: rest2) with
            | some (es, rest3) => some (.obj es, rest3)
            | none => none
      else if c = '[' then
        match rest with
        | [] => none
        | d :: rest2 =>
          if d = ']' then some (.arr [], rest2)
          else
            match parseElems fuel (d :: rest2) with
            | some (l, rest3) => some (.arr l, rest3)
            | none => none
      else
        parseNum (c :: rest)

/-- Parse one or more comma-separated array elements and the closing
bracket. -/
def parseElems : Nat → List Char → Option (List Value × List Char)
  | 0, _ => none
  | fuel + 1, cs =>
    match parseVal fuel cs with
    | some (v, rest) =>
      match rest with
      | [] => none
      | d :: rest2 =>
        if d = ',' then
          match parseElems fuel rest2 with
          | some (l, rest3) => some (v :: l, rest3)
          | none => none
        else if d = ']' then some ([v], rest2)
        else none
    | none => none

/-- Parse one or more comma-separated object members and the closing
brace. -/
def parseEntries : Nat → List Char → Option (List (String × Value) × List Char)
  | 0, _ => none
  | fuel + 1, cs =>
    match cs with
    | [] => none
    | c :: rest =>
      if c = dquote then
        match parseStrChars rest with
        | some (k, rest2) =>
          match rest2 with
          | [] => none
          | d :: rest3 =>
            if d = ':' then
              match parseVal fuel rest3 with
              | some (v, rest4) =>
                match rest4 with
                | [] => none
                | d2 :: rest5 =>
                  if d2 = ',' then
                    match parseEntries fuel rest5 with
                    | some (es, rest6) => some ((String.mk k, v) :: es, rest6)
                    | none => none
                  else if d2 = rbrace then some ([(String.mk k, v)], rest5)
                  else none
              | none => none
            else none
        | none => none
      else none

end

/-- Parse a complete canonical string into a Value, requiring the whole
input to be consumed. -/
def parseCanonical (s : String) : Option Value :=
  match parseVal (2 * s.data.length + 1) s.data with
  | some (v, []) => some v
  | _ => none

/-! ### Round-trip lemmas: digits and string escapes -/

/-- The input after a token must not begin with a digit (so that the
greedy digit scan stops); inside serialized output it begins with a
comma, a closing bracket or brace, or is empty. -/
def noDigitHead : List Char → Prop
  | [] => True
  | c :: _ => isDigitChar c = false

theorem takeDigits_spec : ∀ (D rest : List Char),
    (∀ c ∈ D, isDigitChar c = true) → noDigitHead rest →
    takeDigits (D ++ rest) = (D, rest) := by
  intro D
  induction D with
  | nil =>
    intro rest _ hrest
    cases rest with
    | nil => rfl
    | cons c r =>
      rw [noDigitHead] at hrest
      simp [takeDigits, hrest]
  | cons d D2 ih =>
    intro rest hdig hrest
    have hd : isDigitChar d = true := hdig d (List.mem_cons_self _ _)
    rw [List.cons_append, takeDigits]
    rw [ih rest (fun c hc => hdig c (List.mem_cons_of_mem _ hc)) hrest]
    simp [hd]

theorem digitsVal_shift : ∀ (B : List Char) (a : Nat),
    List.foldl (fun x c => 10 * x + (c.toNat - 48)) a B =
      a * 10 ^ B.length + digitsVal B := by
  intro B
  induction B with
  | nil => intro a; simp [digitsVal]
  | cons c B2 ih =>
    intro a
    rw [List.foldl_cons, ih]
    have h2 : digitsVal (c :: B2) = (c.toNat - 48) * 10 ^ B2.length + digitsVal B2 := by
      rw [digitsVal, List.foldl_cons, ih]
      simp
    rw [h2, List.length_cons, pow_succ]
    ring

theorem digitsVal_append_pow (A B : List Char) :
    digitsVal (A ++ B) = digitsVal A * 10 ^ B.length + digitsVal B := by
  rw [digitsVal, List.foldl_append, ← digitsVal, digitsVal_shift]

theorem stripZeros_exact : ∀ (k : Nat) (fuel : Nat) (m : Nat) (e : Int),
    ¬((10 : Nat) ∣ m) → m ≠ 0 → k ≤ fuel →
    stripZeros fuel (m * 10 ^ k) e = (m, e + k) := by
  intro k
  induction k with
  | zero =>
    intro fuel m e hdvd hm0 _
    have hmod : ¬(m % 10 = 0) := fun h => hdvd (Nat.dvd_of_mod_eq_zero h)
    cases fuel with
    | zero => simp [stripZeros]
    | succ f =>
      rw [pow_zero, Nat.mul_one, stripZeros, if_neg (by exact fun h => hmod h.2)]
      simp
  | succ k2 ih =>
    intro fuel m e hdvd hm0 hk
    match fuel, hk with
    | f + 1, _ =>
      have hmul : m * 10 ^ (k2 + 1) = (m * 10 ^ k2) * 10 := by ring
      rw [stripZeros, if_pos ?_]
      · rw [hmul, Nat.mul_div_cancel _ (by omega)]
        rw [ih f m (e + 1) hdvd hm0 (by omega)]
        congr 1
        omega
      · constructor
        · exact Nat.mul_ne_zero hm0 (pow_ne_zero _ (by omega))
        · rw [hmul]
          exact Nat.mul_mod_left (m * 10 ^ k2) 10

theorem mkFloat_zero (neg : Bool) (e : Int) : mkFloat neg 0 e = .num (.flt 0 0) := by
  rw [mkFloat]
  cases h : stripZeros 0 0 e with
  | mk m2 e2 => simp [stripZeros] at h; simp [h.1]

theorem mkFloat_exact (neg : Bool) (m : Nat) (k : Nat) (e : Int)
    (hdvd : ¬((10 : Nat) ∣ m)) (hm0 : m ≠ 0) :
    mkFloat neg (m * 10 ^ k) e =
      .num (.flt (if neg then -(m : Int) else (m : Int)) (e + k)) := by
  rw [mkFloat]
  have hfuel : k ≤ m * 10 ^ k := by
    calc k ≤ 10 ^ k := le_of_lt (Nat.lt_pow_self (by omega) k)
    _ ≤ m * 10 ^ k := Nat.le_mul_of_pos_left _ (by omega)
  rw [stripZeros_exact k (m * 10 ^ k) m e hdvd hm0 hfuel]
  simp [hm0]

theorem hexVal_hexDigit (d : Nat) (h : d < 16) : hexVal (hexDigit d) = some d := by
  interval_cases d <;> decide

theorem ofNat_toNat_char (c : Char) : Char.ofNat c.toNat = c :=
  Char.ofNat_toNat c

theorem parseStrChars_escChars : ∀ (l rest : List Char),
    parseStrChars (escChars l ++ (dquote :: rest)) = some (l, rest) := by
  intro l
  induction l with
  | nil =>
    intro rest
    rw [escChars, List.nil_append]
    simp [parseStrChars]
  | cons c l2 ih =>
    intro rest
    rw [escChars, List.append_assoc, escapeChar]
    split_ifs with h1 h2 h3 h4 h5 h6 h7 h8
    · subst h1
      simp only [List.cons_append, List.nil_append]
      simp +decide [parseStrChars, parseEsc, parseStrCons, ih rest]
    · subst h2
      simp only [List.cons_append, List.nil_append]
      simp +decide [parseStrChars, parseEsc, parseStrCons, ih rest]
    · have hc : c = Char.ofNat 8 := by rw [← h4, ofNat_toNat_char]
      subst hc
      simp only [List.cons_append, List.nil_append]
      simp +decide [parseStrChars, parseEsc, parseStrCons, ih rest]
    · have hc : c = Char.ofNat 9 := by rw [← h5, ofNat_toNat_char]
      subst hc
      simp only [List.cons_append, List.nil_append]
      simp +decide [parseStrChars, parseEsc, parseStrCons, ih rest]
    · have hc : c = Char.ofNat 10 := by rw [← h6, ofNat_toNat_char]
      subst hc
      simp only [List.cons_append, List.nil_append]
      simp +decide [parseStrChars, parseEsc, parseStrCons, ih rest]
    · have hc : c = Char.ofNat 12 := by rw [← h7, ofNat_toNat_char]
      subst hc
      simp only [List.cons_append, List.nil_append]
      simp +decide [parseStrChars, parseEsc, parseStrCons, ih rest]
    · have hc : c = Char.ofNat 13 := by rw [← h8, ofNat_toNat_char]
      subst hc
      simp only [List.cons_append, List.nil_append]
      simp +decide [parseStrChars, parseEsc, parseStrCons, ih rest]
    · have hhi : c.toNat / 16 < 16 := by omega
      have hlo : c.toNat % 16 < 16 := Nat.mod_lt _ (by omega)
      have hval : ((0 * 16 + 0) * 16 + c.toNat / 16) * 16 + c.toNat % 16 =
          c.toNat := by omega
      simp only [List.cons_append, List.nil_append]
      show (match hexVal '0', hexVal '0', hexVal (hexDigit (c.toNat / 16)),
          hexVal (hexDigit (c.toNat % 16)) with
        | some a, some b, some c2, some d =>
          parseStrCons (Char.ofNat (((a * 16 + b) * 16 + c2) * 16 + d))
            (parseStrChars (escChars l2 ++ dquote :: rest))
        | _, _, _, _ => none) = some (c :: l2, rest)
      rw [show hexVal '0' = some 0 from by decide, hexVal_hexDigit _ hhi,
        hexVal_hexDigit _ hlo]
      show parseStrCons (Char.ofNat (((0 * 16 + 0) * 16 + c.toNat / 16) * 16
        + c.toNat % 16)) (parseStrChars (escChars l2 ++ dquote :: rest)) =
        some (c :: l2, rest)
      rw [hval, ofNat_toNat_char c, ih rest]
      rfl
    · simp only [List.cons_append, List.nil_append]
      rw [parseStrChars, if_neg h1, if_neg h2, ih rest]
      rfl

/-! ### Round-trip lemmas: number tokens -/

/-- What may legally follow a number token in serialized output: nothing,
or a character that is not a digit and not `.` or `e`. -/
def tokenBoundary : List Char → Prop
  | [] => True
  | c :: _ => isDigitChar c = false ∧ c ≠ '.' ∧ c ≠ 'e'

theorem tokenBoundary_noDigit {rest : List Char} (h : tokenBoundary rest) :
    noDigitHead rest := by
  cases rest with
  | nil => trivial
  | cons c r => exact h.1

theorem ne_of_digit {c x : Char} (h : isDigitChar c = true)
    (hx : isDigitChar x = false) : c ≠ x := by
  intro hcx
  rw [hcx, hx] at h
  cases h

theorem digitsVal_replicate_zero (k : Nat) :
    digitsVal (List.replicate k '0') = 0 := by
  induction k with
  | zero => rfl
  | succ k2 ih =>
    rw [List.replicate_succ', digitsVal_append_pow, ih]
    simp [digitsVal]

theorem replicate_zero_digits (k : Nat) :
    ∀ c ∈ List.replicate k '0', isDigitChar c = true := by
  intro c hc
  rw [List.eq_of_mem_replicate hc]
  decide

theorem sign_natAbs (m : Int) :
    (if m < 0 then -(m.natAbs : Int) else (m.natAbs : Int)) = m := by
  split_ifs <;> omega

theorem parseExp_intChars (i : Int) (rest : List Char) (hrest : noDigitHead rest) :
    parseExp (intChars i ++ rest) = some (i, rest) := by
  rw [intChars]
  split_ifs with hneg
  · rw [List.cons_append, parseExp, if_pos rfl,
      takeDigits_spec _ rest (natChars_all_digits _) hrest]
    simp only []
    rw [if_neg (natChars_ne_nil _), digitsVal_natChars]
    congr 2
    omega
  · rcases hD : natChars i.natAbs with _ | ⟨d, D2⟩
    · exact absurd hD (natChars_ne_nil _)
    · have hd : isDigitChar d = true := by
        have := natChars_all_digits i.natAbs d
        rw [hD] at this
        exact this (List.mem_cons_self _ _)
      rw [List.cons_append, parseExp,
        if_neg (ne_of_digit hd (by decide))]
      rw [← List.cons_append, ← hD,
        takeDigits_spec _ rest (natChars_all_digits _) hrest]
      simp only []
      rw [if_neg (natChars_ne_nil _), digitsVal_natChars]
      congr 2
      omega

theorem parseNumAbs_int (neg : Bool) (n : Nat) (rest : List Char)
    (hrest : tokenBoundary rest) :
    parseNumAbs neg (natChars n ++ rest) =
      intResult neg (digitsVal (natChars n)) rest := by
  rw [parseNumAbs]
  simp only [takeDigits_spec _ rest (natChars_all_digits _)
    (tokenBoundary_noDigit hrest)]
  rw [if_neg (natChars_ne_nil _)]
  cases rest with
  | nil => rfl
  | cons c r =>
    rcases hrest with ⟨hd, hdot, he⟩
    simp only []
    rw [if_neg hdot, if_neg he]

theorem notDigit_dot : isDigitChar '.' = false := by decide

theorem notDigit_e : isDigitChar 'e' = false := by decide

theorem parseNumAbs_frac (neg : Bool) (D1 D2 rest : List Char)
    (h1 : D1 ≠ []) (h2 : D2 ≠ [])
    (hd1 : ∀ c ∈ D1, isDigitChar c = true)
    (hd2 : ∀ c ∈ D2, isDigitChar c = true)
    (hrest : tokenBoundary rest) :
    parseNumAbs neg (D1 ++ '.' :: (D2 ++ rest)) =
      some (mkFloat neg (digitsVal (D1 ++ D2)) (-(D2.length : Int)), rest) := by
  cases rest with
  | nil =>
    rw [parseNumAbs]
    simp only [takeDigits_spec D1 ('.' :: (D2 ++ [])) hd1 notDigit_dot,
      takeDigits_spec D2 [] hd2 trivial]
    rw [if_neg h1]
    rw [if_true]
    rw [if_neg h2]
  | cons c r =>
    rcases hrest with ⟨hdd, hdot, hee⟩
    rw [parseNumAbs]
    simp only [takeDigits_spec D1 ('.' :: (D2 ++ c :: r)) hd1 notDigit_dot,
      takeDigits_spec D2 (c :: r) hd2 hdd]
    rw [if_neg h1]
    rw [if_true]
    rw [if_neg h2]
    rw [if_neg hee]

theorem parseNumAbs_expTok (neg : Bool) (D1 : List Char) (i : Int)
    (rest : List Char) (h1 : D1 ≠ [])
    (hd1 : ∀ c ∈ D1, isDigitChar c = true)
    (hrest : noDigitHead rest) :
    parseNumAbs neg (D1 ++ 'e' :: (intChars i ++ rest)) =
      some (mkFloat neg (digitsVal D1) i, rest) := by
  rw [parseNumAbs]
  simp only [takeDigits_spec D1 ('e' :: (intChars i ++ rest)) hd1 notDigit_e]
  rw [if_neg h1]
  rw [if_neg (by decide), if_true]
  rw [parseExp_intChars i rest hrest]

theorem parseNumAbs_fracExp (neg : Bool) (D1 D2 : List Char) (i : Int)
    (rest : List Char) (h1 : D1 ≠ []) (h2 : D2 ≠ [])
    (hd1 : ∀ c ∈ D1, isDigitChar c = true)
    (hd2 : ∀ c ∈ D2, isDigitChar c = true)
    (hrest : noDigitHead rest) :
    parseNumAbs neg (D1 ++ '.' :: (D2 ++ 'e' :: (intChars i ++ rest))) =
      some (mkFloat neg (digitsVal (D1 ++ D2)) (i - (D2.length : Int)), rest) := by
  rw [parseNumAbs]
  simp only [takeDigits_spec D1 ('.' :: (D2 ++ 'e' :: (intChars i ++ rest)))
    hd1 notDigit_dot,
    takeDigits_spec D2 ('e' :: (intChars i ++ rest)) hd2 notDigit_e]
  rw [if_neg h1]
  rw [if_true]
  rw [if_neg h2]
  rw [if_true]
  rw [parseExp_intChars i rest hrest]

theorem fltBody_head (m e : Int) (hds0 : m.natAbs ≠ 0) :
    ∃ d B, fltBody m e = d :: B ∧ isDigitChar d = true := by
  rcases hD : natChars m.natAbs with _ | ⟨d, D2⟩
  · exact absurd hD (natChars_ne_nil _)
  have hd : isDigitChar d = true := by
    have := natChars_all_digits m.natAbs d
    rw [hD] at this
    exact this (List.mem_cons_self _ _)
  rw [fltBody]
  simp only [hD]
  by_cases hk : 0 < ((d :: D2).length : Int) + e ∧ ((d :: D2).length : Int) + e ≤ 16
  · rw [if_pos hk]
    by_cases he : 0 ≤ e
    · rw [if_pos he]
      exact ⟨d, D2 ++ List.replicate e.toNat '0' ++ ['.', '0'], by simp, hd⟩
    · rw [if_neg he]
      obtain ⟨n, hn⟩ : ∃ n, (((d :: D2).length : Int) + e).toNat = n + 1 :=
        ⟨(((d :: D2).length : Int) + e).toNat - 1, by omega⟩
      refine ⟨d, List.take n D2 ++ '.' :: List.drop (n + 1) (d :: D2), ?_, hd⟩
      rw [hn]
      simp [List.take_succ_cons]
  · rw [if_neg hk]
    by_cases hsub : -5 < ((d :: D2).length : Int) + e ∧ ((d :: D2).length : Int) + e ≤ 0
    · rw [if_pos hsub]
      exact ⟨'0',
        '.' :: (List.replicate (-(((d :: D2).length : Int) + e)).toNat '0' ++ (d :: D2)),
        rfl, by decide⟩
    · rw [if_neg hsub]
      by_cases hL1 : (d :: D2).length = 1
      · rw [if_pos hL1]
        have ht : List.take 1 (d :: D2) = [d] := rfl
        rw [ht]
        exact ⟨d, 'e' :: intChars (((d :: D2).length : Int) + e - 1), by simp, hd⟩
      · rw [if_neg hL1]
        have ht : List.take 1 (d :: D2) = [d] := rfl
        rw [ht]
        exact ⟨d, '.' :: List.drop 1 (d :: D2) ++
          'e' :: intChars (((d :: D2).length : Int) + e - 1), by simp, hd⟩

theorem mkFloat_exact0 (neg : Bool) (m : Nat) (E : Int)
    (hdvd : ¬((10 : Nat) ∣ m)) (hm0 : m ≠ 0) :
    mkFloat neg m E = .num (.flt (if neg = true then -(m : Int) else (m : Int)) E) := by
  have h := mkFloat_exact neg m 0 E hdvd hm0
  simpa using h

theorem parseNumAbs_fltBody (neg : Bool) (m e : Int) (rest : List Char)
    (hds0 : m.natAbs ≠ 0) (hdvd : ¬((10 : Nat) ∣ m.natAbs))
    (hrest : tokenBoundary rest) :
    parseNumAbs neg (fltBody m e ++ rest) =
      some (.num (.flt (if neg = true then -(m.natAbs : Int) else (m.natAbs : Int)) e),
        rest) := by
  have hds := natChars_all_digits m.natAbs
  have hne := natChars_ne_nil m.natAbs
  have hdsval := digitsVal_natChars m.natAbs
  have hL : 1 ≤ (natChars m.natAbs).length := List.length_pos.mpr hne
  simp only [fltBody]
  by_cases hk : 0 < ((natChars m.natAbs).length : Int) + e ∧
      ((natChars m.natAbs).length : Int) + e ≤ 16
  · rw [if_pos hk]
    by_cases he : 0 ≤ e
    · -- integral value: digits, padding zeros, trailing ".0"
      rw [if_pos he]
      have hshape : (natChars m.natAbs ++ List.replicate e.toNat '0' ++ ['.', '0']) ++ rest =
          (natChars m.natAbs ++ List.replicate e.toNat '0') ++ '.' :: (['0'] ++ rest) := by
        simp
      rw [hshape]
      rw [parseNumAbs_frac neg (natChars m.natAbs ++ List.replicate e.toNat '0')
        ['0'] rest (by simp [hne]) (by simp)
        (by
          intro c hc
          rcases List.mem_append.1 hc with h | h
          · exact hds c h
          · exact replicate_zero_digits _ c h)
        (by intro c hc; rw [List.mem_singleton.1 hc]; decide) hrest]
      have h0 : digitsVal ['0'] = 0 := by decide
      have hmv : digitsVal ((natChars m.natAbs ++ List.replicate e.toNat '0') ++
          ['0']) = m.natAbs * 10 ^ (e.toNat + 1) := by
        rw [digitsVal_append_pow, digitsVal_append_pow, hdsval,
          digitsVal_replicate_zero, List.length_replicate, h0]
        have hl1 : List.length ['0'] = 1 := rfl
        rw [hl1]
        ring
      rw [hmv, mkFloat_exact neg m.natAbs (e.toNat + 1) _ hdvd hds0]
      have hE : -((List.length ['0'] : Int)) + ((e.toNat + 1 : Nat) : Int) = e := by
        have hl1 : List.length ['0'] = 1 := rfl
        rw [hl1]
        omega
      rw [hE]
    · -- non-integral fixed notation: decimal point inside the digit run
      rw [if_neg he]
      have h1 := hk.1
      have h16 := hk.2
      have hkpos : 0 < (((natChars m.natAbs).length : Int) + e).toNat := by omega
      have hklt : (((natChars m.natAbs).length : Int) + e).toNat <
          (natChars m.natAbs).length := by omega
      have hshape : (List.take (((natChars m.natAbs).length : Int) + e).toNat (natChars m.natAbs) ++
            '.' :: List.drop (((natChars m.natAbs).length : Int) + e).toNat (natChars m.natAbs)) ++ rest =
          List.take (((natChars m.natAbs).length : Int) + e).toNat (natChars m.natAbs) ++
            '.' :: (List.drop (((natChars m.natAbs).length : Int) + e).toNat (natChars m.natAbs) ++ rest) := by
        simp
      rw [hshape]
      rw [parseNumAbs_frac neg
        (List.take (((natChars m.natAbs).length : Int) + e).toNat (natChars m.natAbs))
        (List.drop (((natChars m.natAbs).length : Int) + e).toNat (natChars m.natAbs)) rest
        (by
          apply List.ne_nil_of_length_pos
          rw [List.length_take]
          omega)
        (by
          apply List.ne_nil_of_length_pos
          rw [List.length_drop]
          omega)
        (fun c hc => hds c (List.mem_of_mem_take hc))
        (fun c hc => hds c (List.mem_of_mem_drop hc)) hrest]
      rw [List.take_append_drop, hdsval, mkFloat_exact0 neg m.natAbs _ hdvd hds0]
      have hE : -(((List.drop (((natChars m.natAbs).length : Int) + e).toNat
          (natChars m.natAbs)).length : Int)) = e := by
        rw [List.length_drop]
        omega
      rw [hE]
  · rw [if_neg hk]
    by_cases hsub : -5 < ((natChars m.natAbs).length : Int) + e ∧
        ((natChars m.natAbs).length : Int) + e ≤ 0
    · -- subunit fixed notation: 0.000…digits
      rw [if_pos hsub]
      have hshape : ('0' :: '.' :: List.replicate (-(((natChars m.natAbs).length : Int) + e)).toNat '0' ++ natChars m.natAbs) ++ rest =
          ['0'] ++ '.' :: ((List.replicate (-(((natChars m.natAbs).length : Int) + e)).toNat '0' ++ natChars m.natAbs) ++ rest) := by
        simp
      rw [hshape]
      rw [parseNumAbs_frac neg ['0']
        (List.replicate (-(((natChars m.natAbs).length : Int) + e)).toNat '0' ++ natChars m.natAbs)
        rest (by simp) (by simp [hne])
        (by intro c hc; rw [List.mem_singleton.1 hc]; decide)
        (by
          intro c hc
          rcases List.mem_append.1 hc with h | h
          · exact replicate_zero_digits _ c h
          · exact hds c h) hrest]
      have h0 : digitsVal ['0'] = 0 := by decide
      have hmv : digitsVal (['0'] ++ (List.replicate (-(((natChars m.natAbs).length : Int) + e)).toNat '0' ++ natChars m.natAbs)) = m.natAbs := by
        rw [digitsVal_append_pow, digitsVal_append_pow, digitsVal_replicate_zero,
          hdsval, h0]
        ring
      rw [hmv, mkFloat_exact0 neg m.natAbs _ hdvd hds0]
      have hE : -(((List.replicate (-(((natChars m.natAbs).length : Int) + e)).toNat '0' ++ natChars m.natAbs).length : Int)) = e := by
        rw [List.length_append, List.length_replicate]
        omega
      rw [hE]
    · -- exponent notation
      rw [if_neg hsub]
      by_cases hL1 : (natChars m.natAbs).length = 1
      · rw [if_pos hL1]
        have htake : List.take 1 (natChars m.natAbs) = natChars m.natAbs :=
          List.take_of_length_le (by omega)
        have hshape : (List.take 1 (natChars m.natAbs) ++ [] ++
              'e' :: intChars (((natChars m.natAbs).length : Int) + e - 1)) ++ rest =
            natChars m.natAbs ++
              'e' :: (intChars (((natChars m.natAbs).length : Int) + e - 1) ++ rest) := by
          rw [htake]
          simp
        rw [hshape]
        rw [parseNumAbs_expTok neg (natChars m.natAbs) _ rest hne hds
          (tokenBoundary_noDigit hrest)]
        rw [hdsval, mkFloat_exact0 neg m.natAbs _ hdvd hds0]
        have hE : ((natChars m.natAbs).length : Int) + e - 1 = e := by omega
        rw [hE]
      · rw [if_neg hL1]
        have hshape : (List.take 1 (natChars m.natAbs) ++
              ('.' :: List.drop 1 (natChars m.natAbs)) ++
              'e' :: intChars (((natChars m.natAbs).length : Int) + e - 1)) ++ rest =
            List.take 1 (natChars m.natAbs) ++
              '.' :: (List.drop 1 (natChars m.natAbs) ++
                'e' :: (intChars (((natChars m.natAbs).length : Int) + e - 1) ++ rest)) := by
          simp
        rw [hshape]
        rw [parseNumAbs_fracExp neg (List.take 1 (natChars m.natAbs))
          (List.drop 1 (natChars m.natAbs)) _ rest
          (by
            apply List.ne_nil_of_length_pos
            rw [List.length_take]
            omega)
          (by
            apply List.ne_nil_of_length_pos
            rw [List.length_drop]
            omega)
          (fun c hc => hds c (List.mem_of_mem_take hc))
          (fun c hc => hds c (List.mem_of_mem_drop hc))
          (tokenBoundary_noDigit hrest)]
        rw [List.take_append_drop, hdsval, mkFloat_exact0 neg m.natAbs _ hdvd hds0]
        have hE : ((natChars m.natAbs).length : Int) + e - 1 -
            ((List.drop 1 (natChars m.natAbs)).length : Int) = e := by
          rw [List.length_drop]
          omega
        rw [hE]

theorem parseNum_numChars (n : Num) (rest : List Char) (hwf : wfNum n = true)
    (hrest : tokenBoundary rest) :
    parseNum (numChars n ++ rest) = some (.num n, rest) := by
  cases n with
  | pos k =>
    rw [numChars]
    rcases hD : natChars k with _ | ⟨d, D2⟩
    · exact absurd hD (natChars_ne_nil _)
    · have hd : isDigitChar d = true := by
        have := natChars_all_digits k d
        rw [hD] at this
        exact this (List.mem_cons_self _ _)
      rw [List.cons_append, parseNum,
        if_neg (ne_of_digit hd (by decide)), ← List.cons_append, ← hD,
        parseNumAbs_int false k rest hrest, digitsVal_natChars, intResult]
      rw [wfNum] at hwf
      rw [if_pos (of_decide_eq_true hwf)]
  | neg k =>
    rw [numChars, List.cons_append, parseNum, if_pos rfl,
      parseNumAbs_int true k rest hrest, digitsVal_natChars, intResult]
    rw [wfNum] at hwf
    rw [if_pos (of_decide_eq_true hwf).2]
  | flt m e =>
    rw [numChars]
    by_cases hm : m = 0
    · have he : e = 0 := by
        rw [wfNum, if_pos hm] at hwf
        exact of_decide_eq_true hwf
      subst hm
      subst he
      rw [fltChars, if_pos rfl]
      simp only [List.cons_append, List.nil_append]
      rw [parseNum, if_neg (by decide), parseNumAbs]
      have h1 : takeDigits ('0' :: '.' :: '0' :: rest) =
          (['0'], '.' :: '0' :: rest) := by
        have := takeDigits_spec ['0'] ('.' :: '0' :: rest) (by decide)
          (by show isDigitChar '.' = false; decide)
        simpa using this
      simp only [List.cons_append, List.nil_append, h1]
      rw [if_neg (by simp)]
      rw [if_true]
      have h2 : takeDigits ('0' :: rest) = (['0'], rest) := by
        have := takeDigits_spec ['0'] rest (by decide)
          (tokenBoundary_noDigit hrest)
        simpa using this
      rw [h2]
      rw [if_neg (by simp)]
      cases rest with
      | nil => simp +decide [mkFloat_zero]
      | cons c r =>
        rcases hrest with ⟨hd, hdot, hee⟩
        simp +decide [hee, mkFloat_zero]
    · have hdvd : ¬((10 : Nat) ∣ m.natAbs) := by
        rw [wfNum, if_neg hm] at hwf
        have h10 : ¬((10 : Int) ∣ m) := of_decide_eq_true hwf
        intro hc
        exact h10 (Int.natAbs_dvd_natAbs.mp (by simpa using hc))
      have hds0 : m.natAbs ≠ 0 := by omega
      rw [fltChars, if_neg hm]
      by_cases hneg : m < 0
      · rw [if_pos hneg]
        obtain ⟨d, B, hdB, hd⟩ := fltBody_head m e hds0
        rw [hdB]
        simp only [List.cons_append, List.nil_append, List.singleton_append]
        rw [parseNum, if_pos rfl, ← List.cons_append, ← hdB,
          parseNumAbs_fltBody true m e rest hds0 hdvd hrest]
        have hmm : (if (true : Bool) = true then -(m.natAbs : Int) else (m.natAbs : Int)) = m := by
          rw [if_pos rfl]
          omega
        rw [hmm]
      · rw [if_neg hneg]
        obtain ⟨d, B, hdB, hd⟩ := fltBody_head m e hds0
        rw [hdB]
        simp only [List.nil_append, List.cons_append]
        rw [parseNum, if_neg (ne_of_digit hd (by decide)), ← List.cons_append,
          ← hdB, parseNumAbs_fltBody false m e rest hds0 hdvd hrest]
        have hmm : (if (false : Bool) = true then -(m.natAbs : Int) else (m.natAbs : Int)) = m := by
          rw [if_neg (by decide)]
          omega
        rw [hmm]


/-! ### Round-trip lemmas: whole serialized values parse back -/

/-- A serialized number token begins with a minus sign or a digit. -/
theorem numChars_head_tok (n : Num) :
    ∃ d B, numChars n = d :: B ∧ (d = '-' ∨ isDigitChar d = true) := by
  cases n with
  | pos k =>
    rcases hD : natChars k with _ | ⟨d, D⟩
    · exact absurd hD (natChars_ne_nil _)
    · refine ⟨d, D, by rw [numChars, hD], .inr ?_⟩
      have := natChars_all_digits k d
      rw [hD] at this
      exact this (List.mem_cons_self _ _)
  | neg k => exact ⟨'-', natChars k, by rw [numChars], .inl rfl⟩
  | flt m e =>
    by_cases hm : m = 0
    · subst hm
      exact ⟨'0', ['.', '0'], by rw [numChars, fltChars, if_pos rfl], .inr (by decide)⟩
    · obtain ⟨d, B, hdB, hd⟩ := fltBody_head m e (by omega)
      by_cases hneg : m < 0
      · refine ⟨'-', fltBody m e, ?_, .inl rfl⟩
        rw [numChars, fltChars, if_neg hm, if_pos hneg]
        rfl
      · refine ⟨d, B, ?_, .inr hd⟩
        rw [numChars, fltChars, if_neg hm, if_neg hneg, List.nil_append, hdB]

/-- A serialized value never begins with a closing bracket. -/
theorem serVal_head_ne (v : Value) : ∃ d B, serVal v = d :: B ∧ d ≠ ']' := by
  cases v with
  | null => exact ⟨'n', ['u', 'l', 'l'], by rw [serVal], by decide⟩
  | bool b =>
    cases b with
    | false => exact ⟨'f', ['a', 'l', 's', 'e'], by rw [serVal], by decide⟩
    | true => exact ⟨'t', ['r', 'u', 'e'], by rw [serVal], by decide⟩
  | num n =>
    obtain ⟨d, B, hdB, hd⟩ := numChars_head_tok n
    refine ⟨d, B, by rw [serVal, hdB], ?_⟩
    rcases hd with h | h
    · subst h
      decide
    · exact ne_of_digit h (by decide)
  | str s =>
    refine ⟨dquote, escChars s.data ++ [dquote], ?_, by decide⟩
    rw [serVal, serStr]
    simp
  | arr l =>
    refine ⟨'[', serElems l ++ [']'], ?_, by decide⟩
    rw [serVal]
    simp
  | obj es =>
    refine ⟨lbrace, serEntries es ++ [rbrace], ?_, by decide⟩
    rw [serVal]
    simp

theorem serVal_length_pos (v : Value) : 1 ≤ (serVal v).length := by
  obtain ⟨d, B, hdB, _⟩ := serVal_head_ne v
  rw [hdB]
  simp

/-- A nonempty serialized element list begins like its first value. -/
theorem serElems_head (v : Value) (t : List Value) :
    ∃ d B, serElems (v :: t) = d :: B ∧ d ≠ ']' := by
  obtain ⟨d, B, hdB, hdne⟩ := serVal_head_ne v
  cases t with
  | nil => exact ⟨d, B, by rw [serElems, hdB], hdne⟩
  | cons v2 r =>
    refine ⟨d, B ++ ',' :: serElems (v2 :: r), ?_, hdne⟩
    rw [serElems, hdB]
    simp

/-- A nonempty serialized entry list begins with the opening quote of its
first key. -/
theorem serEntries_head (k : String) (v : Value) (t : List (String × Value)) :
    ∃ B, serEntries ((k, v) :: t) = dquote :: B := by
  cases t with
  | nil =>
    refine ⟨(escChars k.data ++ [dquote]) ++ ':' :: serVal v, ?_⟩
    rw [serEntries, serStr]
    simp
  | cons e r =>
    refine ⟨(escChars k.data ++ [dquote]) ++ ':' :: serVal v ++ ',' :: serEntries (e :: r), ?_⟩
    rw [serEntries, serStr]
    simp

theorem parseVal_null_step (fuel : Nat) (rest : List Char) :
    parseVal (fuel + 1) (serVal .null ++ rest) = some (.null, rest) := by
  rw [serVal]
  simp +decide [parseVal, expect]

theorem parseVal_true_step (fuel : Nat) (rest : List Char) :
    parseVal (fuel + 1) (serVal (.bool true) ++ rest) = some (.bool true, rest) := by
  rw [serVal]
  simp +decide [parseVal, expect]

theorem parseVal_false_step (fuel : Nat) (rest : List Char) :
    parseVal (fuel + 1) (serVal (.bool false) ++ rest) = some (.bool false, rest) := by
  rw [serVal]
  simp +decide [parseVal, expect]

theorem parseVal_str_step (fuel : Nat) (s : String) (rest : List Char) :
    parseVal (fuel + 1) (serVal (.str s) ++ rest) = some (.str s, rest) := by
  have hshape : serVal (.str s) ++ rest = dquote :: (escChars s.data ++ (dquote :: rest)) := by
    rw [serVal, serStr]
    simp
  rw [hshape]
  simp only [parseVal]
  rw [if_neg (by decide), if_neg (by decide), if_neg (by decide), if_true,
    parseStrChars_escChars s.data rest]

theorem parseVal_num_step (fuel : Nat) (n : Num) (rest : List Char)
    (hwfn : wfNum n = true) (hb : tokenBoundary rest) :
    parseVal (fuel + 1) (serVal (.num n) ++ rest) = some (.num n, rest) := by
  obtain ⟨d, B, hdB, hd⟩ := numChars_head_tok n
  have hshape : serVal (.num n) ++ rest = d :: (B ++ rest) := by
    rw [serVal, hdB]
    simp
  rw [hshape]
  simp only [parseVal]
  rcases hd with h | h
  · subst h
    rw [if_neg (by decide), if_neg (by decide), if_neg (by decide),
      if_neg (by decide), if_neg (by decide), if_neg (by decide),
      ← List.cons_append, ← hdB]
    exact parseNum_numChars n rest hwfn hb
  · rw [if_neg (ne_of_digit h (by decide)), if_neg (ne_of_digit h (by decide)),
      if_neg (ne_of_digit h (by decide)), if_neg (ne_of_digit h (by decide)),
      if_neg (ne_of_digit h (by decide)), if_neg (ne_of_digit h (by decide)),
      ← List.cons_append, ← hdB]
    exact parseNum_numChars n rest hwfn hb

theorem parseVal_arr_nil_step (fuel : Nat) (rest : List Char) :
    parseVal (fuel + 1) (serVal (.arr []) ++ rest) = some (.arr [], rest) := by
  have hshape : serVal (.arr []) ++ rest = '[' :: (']' :: rest) := by
    rw [serVal, serElems]
    simp
  rw [hshape]
  simp only [parseVal]
  rw [if_neg (by decide), if_neg (by decide), if_neg (by decide),
    if_neg (by decide), if_neg (by decide), if_true, if_true]

theorem parseVal_arr_step (fuel : Nat) (d : Char) (B : List Char)
    (l : List Value) (r : List Char) (hd : d ≠ ']')
    (h : parseElems fuel (d :: B) = some (l, r)) :
    parseVal (fuel + 1) ('[' :: d :: B) = some (.arr l, r) := by
  simp only [parseVal]
  rw [if_neg (by decide), if_neg (by decide), if_neg (by decide),
    if_neg (by decide), if_neg (by decide), if_true, if_neg hd, h]

theorem parseVal_obj_nil_step (fuel : Nat) (rest : List Char) :
    parseVal (fuel + 1) (serVal (.obj []) ++ rest) = some (.obj [], rest) := by
  have hshape : serVal (.obj []) ++ rest = lbrace :: (rbrace :: rest) := by
    rw [serVal, serEntries]
    simp
  rw [hshape]
  simp only [parseVal]
  rw [if_neg (by decide), if_neg (by decide), if_neg (by decide),
    if_neg (by decide), if_true, if_true]

theorem parseVal_obj_step (fuel : Nat) (d : Char) (B : List Char)
    (es : List (String × Value)) (r : List Char) (hd : d ≠ rbrace)
    (h : parseEntries fuel (d :: B) = some (es, r)) :
    parseVal (fuel + 1) (lbrace :: d :: B) = some (.obj es, r) := by
  simp only [parseVal]
  rw [if_neg (by decide), if_neg (by decide), if_neg (by decide),
    if_neg (by decide), if_true, if_neg hd, h]

theorem parseElems_last (fuel : Nat) (cs : List Char) (v : Value)
    (rest : List Char) (h : parseVal fuel cs = some (v, ']' :: rest)) :
    parseElems (fuel + 1) cs = some ([v], rest) := by
  simp only [parseElems, h]
  rw [if_neg (by decide), if_true]

theorem parseElems_more (fuel : Nat) (cs : List Char) (v : Value)
    (rest2 : List Char) (l : List Value) (r3 : List Char)
    (h : parseVal fuel cs = some (v, ',' :: rest2))
    (h2 : parseElems fuel rest2 = some (l, r3)) :
    parseElems (fuel + 1) cs = some (v :: l, r3) := by
  simp only [parseElems, h, h2]
  rw [if_true]

theorem parseEntries_last (fuel : Nat) (k : String) (Y : List Char)
    (v : Value) (rest : List Char)
    (hv : parseVal fuel Y = some (v, rbrace :: rest)) :
    parseEntries (fuel + 1) (serStr k ++ ':' :: Y) = some ([(k, v)], rest) := by
  have hshape : serStr k ++ ':' :: Y = dquote :: (escChars k.data ++ (dquote :: ':' :: Y)) := by
    rw [serStr]
    simp
  rw [hshape]
  simp only [parseEntries, parseStrChars_escChars k.data (':' :: Y), hv]
  rw [if_true, if_true, if_neg (by decide), if_true]

theorem parseEntries_more (fuel : Nat) (k : String) (Y : List Char)
    (v : Value) (rest5 : List Char) (es : List (String × Value)) (r6 : List Char)
    (hv : parseVal fuel Y = some (v, ',' :: rest5))
    (he : parseEntries fuel rest5 = some (es, r6)) :
    parseEntries (fuel + 1) (serStr k ++ ':' :: Y) = some ((k, v) :: es, r6) := by
  have hshape : serStr k ++ ':' :: Y = dquote :: (escChars k.data ++ (dquote :: ':' :: Y)) := by
    rw [serStr]
    simp
  rw [hshape]
  simp only [parseEntries, parseStrChars_escChars k.data (':' :: Y), hv, he]
  rw [if_true, if_true, if_true]

/-- The parser is a left inverse of the serializer on well-formed values:
one mutual strong statement over the fuel. -/
theorem parse_ser : ∀ (fuel : Nat),
    (∀ (v : Value) (rest : List Char), wfValue v = true → tokenBoundary rest →
      (serVal v).length ≤ fuel → parseVal fuel (serVal v ++ rest) = some (v, rest)) ∧
    (∀ (l : List Value) (rest : List Char), l ≠ [] → wfValueList l = true →
      (serElems l).length + 1 ≤ fuel →
      parseElems fuel (serElems l ++ ']' :: rest) = some (l, rest)) ∧
    (∀ (es : List (String × Value)) (rest : List Char), es ≠ [] →
      wfValueEntries es = true → (serEntries es).length + 1 ≤ fuel →
      parseEntries fuel (serEntries es ++ rbrace :: rest) = some (es, rest)) := by
  intro fuel
  induction fuel with
  | zero =>
    refine ⟨?_, ?_, ?_⟩
    · intro v rest _ _ hf
      have := serVal_length_pos v
      omega
    · intro l rest _ _ hf
      omega
    · intro es rest _ _ hf
      omega
  | succ fuel ih =>
    obtain ⟨ihV, ihL, ihE⟩ := ih
    refine ⟨?_, ?_, ?_⟩
    · intro v rest hwf hb hf
      cases v with
      | null => exact parseVal_null_step fuel rest
      | bool b =>
        cases b with
        | false => exact parseVal_false_step fuel rest
        | true => exact parseVal_true_step fuel rest
      | num n =>
        have hwfn : wfNum n = true := by
          rw [wfValue] at hwf
          exact hwf
        exact parseVal_num_step fuel n rest hwfn hb
      | str s => exact parseVal_str_step fuel s rest
      | arr l =>
        cases l with
        | nil => exact parseVal_arr_nil_step fuel rest
        | cons v1 t =>
          have hwl : wfValueList (v1 :: t) = true := by
            rw [wfValue] at hwf
            exact hwf
          obtain ⟨d, B, hdB, hdne⟩ := serElems_head v1 t
          have hflen : (serElems (v1 :: t)).length + 1 ≤ fuel := by
            rw [serVal] at hf
            simp at hf
            omega
          have hshape : serVal (.arr (v1 :: t)) ++ rest = '[' :: (d :: (B ++ ']' :: rest)) := by
            rw [serVal, hdB]
            simp
          rw [hshape]
          have hE : parseElems fuel (d :: (B ++ ']' :: rest)) = some (v1 :: t, rest) := by
            have h := ihL (v1 :: t) rest (by simp) hwl hflen
            rw [hdB] at h
            simpa using h
          exact parseVal_arr_step fuel d _ _ _ hdne hE
      | obj es =>
        cases es with
        | nil => exact parseVal_obj_nil_step fuel rest
        | cons e t =>
          obtain ⟨k, v1⟩ := e
          have hwe : wfValueEntries ((k, v1) :: t) = true := by
            rw [wfValue, Bool.and_eq_true] at hwf
            exact hwf.1
          obtain ⟨B, hdB⟩ := serEntries_head k v1 t
          have hflen : (serEntries ((k, v1) :: t)).length + 1 ≤ fuel := by
            rw [serVal] at hf
            simp at hf
            omega
          have hshape : serVal (.obj ((k, v1) :: t)) ++ rest =
              lbrace :: (dquote :: (B ++ rbrace :: rest)) := by
            rw [serVal, hdB]
            simp
          rw [hshape]
          have hE : parseEntries fuel (dquote :: (B ++ rbrace :: rest)) =
              some ((k, v1) :: t, rest) := by
            have h := ihE ((k, v1) :: t) rest (by simp) hwe hflen
            rw [hdB] at h
            simpa using h
          exact parseVal_obj_step fuel dquote _ _ _ (by decide) hE
    · intro l rest hne hwl hfl
      rcases l with _ | ⟨v, t⟩
      · exact absurd rfl hne
      have hwl2 : wfValue v = true ∧ wfValueList t = true := by
        rw [wfValueList, Bool.and_eq_true] at hwl
        exact hwl
      cases t with
      | nil =>
        have hsv : serElems [v] = serVal v := by rw [serElems]
        rw [hsv]
        have hv : parseVal fuel (serVal v ++ ']' :: rest) = some (v, ']' :: rest) :=
          ihV v (']' :: rest) hwl2.1 (by exact ⟨by decide, by decide, by decide⟩)
            (by rw [hsv] at hfl; omega)
        exact parseElems_last fuel _ v rest hv
      | cons v2 r =>
        have hlen : (serElems (v :: v2 :: r)).length =
            (serVal v).length + 1 + (serElems (v2 :: r)).length := by
          rw [serElems]
          simp
          omega
        have hshape : serElems (v :: v2 :: r) ++ ']' :: rest =
            serVal v ++ ',' :: (serElems (v2 :: r) ++ ']' :: rest) := by
          rw [serElems]
          simp
        rw [hshape]
        have hpos := serVal_length_pos v
        have hv : parseVal fuel (serVal v ++ ',' :: (serElems (v2 :: r) ++ ']' :: rest)) =
            some (v, ',' :: (serElems (v2 :: r) ++ ']' :: rest)) :=
          ihV v _ hwl2.1 (by exact ⟨by decide, by decide, by decide⟩) (by omega)
        have ht : parseElems fuel (serElems (v2 :: r) ++ ']' :: rest) =
            some (v2 :: r, rest) :=
          ihL (v2 :: r) rest (by simp) hwl2.2 (by omega)
        exact parseElems_more fuel _ v _ _ _ hv ht
    · intro es rest hne hwe hfl
      rcases es with _ | ⟨e, t⟩
      · exact absurd rfl hne
      obtain ⟨k, v⟩ := e
      have hwe2 : wfValue v = true ∧ wfValueEntries t = true := by
        rw [wfValueEntries, Bool.and_eq_true] at hwe
        exact hwe
      cases t with
      | nil =>
        have hlen : (serEntries [(k, v)]).length =
            (serStr k).length + 1 + (serVal v).length := by
          rw [serEntries]
          simp
          omega
        have hshape : serEntries [(k, v)] ++ rbrace :: rest =
            serStr k ++ ':' :: (serVal v ++ rbrace :: rest) := by
          rw [serEntries]
          simp
        rw [hshape]
        have hv : parseVal fuel (serVal v ++ rbrace :: rest) = some (v, rbrace :: rest) :=
          ihV v (rbrace :: rest) hwe2.1 (by exact ⟨by decide, by decide, by decide⟩)
            (by omega)
        exact parseEntries_last fuel k _ v rest hv
      | cons e2 r =>
        have hlen : (serEntries ((k, v) :: e2 :: r)).length =
            (serStr k).length + 1 + (serVal v).length + 1 + (serEntries (e2 :: r)).length := by
          rw [serEntries]
          simp
          omega
        have hshape : serEntries ((k, v) :: e2 :: r) ++ rbrace :: rest =
            serStr k ++ ':' :: (serVal v ++ ',' :: (serEntries (e2 :: r) ++ rbrace :: rest)) := by
          rw [serEntries]
          simp
        rw [hshape]
        have hpos := serVal_length_pos v
        have hv : parseVal fuel (serVal v ++ ',' :: (serEntries (e2 :: r) ++ rbrace :: rest)) =
            some (v, ',' :: (serEntries (e2 :: r) ++ rbrace :: rest)) :=
          ihV v _ hwe2.1 (by exact ⟨by decide, by decide, by decide⟩) (by omega)
        have ht : parseEntries fuel (serEntries (e2 :: r) ++ rbrace :: rest) =
            some (e2 :: r, rest) :=
          ihE (e2 :: r) rest (by simp) hwe2.2 (by omega)
        exact parseEntries_more fuel k _ v _ _ _ hv ht


/-! ### Idempotence of `deep_sort` -/

theorem buildSorted_subset :
    ∀ (l acc : List (String × Value)) (p : String × Value),
      p ∈ List.foldl (fun acc kv => objInsert kv.1 kv.2 acc) acc l →
      p ∈ acc ∨ p ∈ l := by
  intro l
  induction l with
  | nil =>
    intro acc p hp
    exact .inl hp
  | cons e rest ih =>
    intro acc p hp
    rw [List.foldl_cons] at hp
    rcases ih _ p hp with h | h
    · rcases objInsert_mem h with h2 | h2
      · right
        rw [h2]
        exact List.mem_cons_self _ _
      · exact .inl h2
    · exact .inr (List.mem_cons_of_mem _ h)

theorem mem_buildSorted {l : List (String × Value)} {p : String × Value}
    (hp : p ∈ buildSorted l) : p ∈ l := by
  rcases buildSorted_subset l [] p hp with h | h
  · cases h
  · exact h

/-- A strictly key-sorted entry list has pairwise distinct keys. -/
theorem keys_nodup_of_sorted {l : List (String × Value)}
    (h : l.Pairwise entLt) : (l.map Prod.fst).Nodup := by
  refine List.Pairwise.map Prod.fst ?_ h
  intro a b hab hc
  rw [entLt, hc, cmpString_eq_iff.mpr rfl] at hab
  cases hab

theorem deepSortEntries_of_fixed :
    ∀ (l : List (String × Value)), (∀ p ∈ l, deep_sort p.2 = p.2) →
      deepSortEntries l = l := by
  intro l
  induction l with
  | nil => intro _; rfl
  | cons e rest ih =>
    intro h
    rcases e with ⟨k, v⟩
    have h2 : deep_sort v = v := h (k, v) (List.mem_cons_self _ _)
    rw [deepSortEntries, h2, ih (fun p hp => h p (List.mem_cons_of_mem _ hp))]

theorem deepSortList_of_fixed :
    ∀ (l : List Value), (∀ v ∈ l, deep_sort v = v) → deepSortList l = l := by
  intro l
  induction l with
  | nil => intro _; rfl
  | cons a t ih =>
    intro h
    rw [deepSortList, h a (List.mem_cons_self _ _),
      ih (fun v hv => h v (List.mem_cons_of_mem _ hv))]

theorem isPrimV_deep_sort (v : Value) : isPrimV (deep_sort v) = isPrimV v := by
  cases v with
  | arr l =>
    simp only [deep_sort]
    split_ifs <;> rfl
  | obj es =>
    rw [deep_sort_obj]
    rfl
  | null => rfl
  | bool b => rfl
  | num n => rfl
  | str s => rfl

theorem discr_deep_sort (v : Value) : discr (deep_sort v) = discr v := by
  cases v with
  | arr l =>
    simp only [deep_sort]
    split_ifs <;> rfl
  | obj es =>
    rw [deep_sort_obj]
    rfl
  | null => rfl
  | bool b => rfl
  | num n => rfl
  | str s => rfl

theorem deepSortList_all_prim :
    ∀ (l : List Value), (deepSortList l).all isPrimV = l.all isPrimV := by
  intro l
  induction l with
  | nil => rfl
  | cons a t ih =>
    rw [deepSortList, List.all_cons, List.all_cons, isPrimV_deep_sort, ih]

theorem deepSortList_length :
    ∀ (l : List Value), (deepSortList l).length = l.length := by
  intro l
  induction l with
  | nil => rfl
  | cons a t ih => rw [deepSortList, List.length_cons, List.length_cons, ih]

theorem deepSortList_headD_discr (l : List Value) :
    discr ((deepSortList l).headD .null) = discr (l.headD .null) := by
  cases l with
  | nil => rfl
  | cons a t =>
    rw [deepSortList, List.headD_cons, List.headD_cons]
    exact discr_deep_sort a

theorem deepSortList_all_discr (l : List Value) (t : Nat) :
    (deepSortList l).all (fun v => discr v == t) =
      l.all (fun v => discr v == t) := by
  induction l with
  | nil => rfl
  | cons a r ih =>
    rw [deepSortList, List.all_cons, List.all_cons, discr_deep_sort, ih]

theorem hM2_helper (l : List Value) :
    (deepSortList l).all (fun v => discr v == discr ((deepSortList l).headD .null)) =
      l.all (fun v => discr v == discr (l.headD .null)) := by
  rw [deepSortList_headD_discr, deepSortList_all_discr]

theorem deep_sort_arr_else1 (l : List Value)
    (h : ¬((l.all isPrimV && l.length != 0) = true)) :
    deep_sort (.arr l) = .arr (deepSortList l) := by
  simp only [deep_sort]
  rw [if_neg h]

theorem deep_sort_arr_else2 (l : List Value)
    (h1 : (l.all isPrimV && l.length != 0) = true)
    (h2 : ¬(l.all (fun v => discr v == discr (l.headD .null)) = true)) :
    deep_sort (.arr l) = .arr (deepSortList l) := by
  simp only [deep_sort]
  rw [if_pos h1, if_neg h2]

theorem ordInsertBy_cons_of_le (a b : Value) (l : List Value)
    (h : cmpVal a b ≠ .gt) : ordInsertBy cmpVal a (b :: l) = a :: b :: l := by
  rw [ordInsertBy, if_neg h]

/-- Insertion sort leaves an already sorted list unchanged. -/
theorem insSortBy_sorted_id :
    ∀ (l : List Value), l.Pairwise leV → insSortBy cmpVal l = l := by
  intro l
  induction l with
  | nil => intro _; rfl
  | cons a t ih =>
    intro hs
    rcases List.pairwise_cons.1 hs with ⟨hhead, htail⟩
    rw [insSortBy, ih htail]
    cases t with
    | nil => rfl
    | cons b r => exact ordInsertBy_cons_of_le a b r (hhead b (List.mem_cons_self _ _))

mutual

/-- `deep_sort` is idempotent. -/
theorem deep_sort_idem : ∀ (v : Value), deep_sort (deep_sort v) = deep_sort v
  | .null => rfl
  | .bool _ => rfl
  | .num _ => rfl
  | .str _ => rfl
  | .arr l => by
    by_cases h1 : (l.all isPrimV && l.length != 0) = true
    · by_cases h2 : (l.all (fun v => discr v == discr (l.headD .null))) = true
      · rw [Bool.and_eq_true] at h1
        obtain ⟨hprim, hlen⟩ := h1
        have hne : l ≠ [] := by
          intro hc
          subst hc
          simp at hlen
        have hhomog : ∀ x ∈ l, ∀ y ∈ l, discr x = discr y := by
          intro x hx y hy
          have hx2 := List.all_eq_true.mp h2 x hx
          have hy2 := List.all_eq_true.mp h2 y hy
          rw [beq_iff_eq] at hx2 hy2
          rw [hx2, hy2]
        rw [deep_sort_arr_homog hprim hne hhomog]
        have hperm : List.Perm (insSortBy cmpVal l) l := insSortBy_perm cmpVal l
        have hprim2 : (insSortBy cmpVal l).all isPrimV = true := by
          rw [List.all_eq_true] at hprim ⊢
          intro x hx
          exact hprim x (hperm.subset hx)
        have hne2 : insSortBy cmpVal l ≠ [] := by
          intro hc
          rw [hc] at hperm
          exact hne hperm.nil_eq.symm
        have hhomog2 : ∀ x ∈ insSortBy cmpVal l, ∀ y ∈ insSortBy cmpVal l,
            discr x = discr y := fun x hx y hy =>
          hhomog x (hperm.subset hx) y (hperm.subset hy)
        rw [deep_sort_arr_homog hprim2 hne2 hhomog2]
        have hsorted : (insSortBy cmpVal l).Pairwise leV := by
          apply pairwise_insSortBy
          intro x hx y hy z hz
          exact leV_trans_of_discr (hhomog x hx y hy) (hhomog y hy z hz)
        rw [insSortBy_sorted_id _ hsorted]
      · rw [deep_sort_arr_else2 l h1 h2]
        have hM1 : (((deepSortList l).all isPrimV &&
            (deepSortList l).length != 0) = true) := by
          rw [deepSortList_all_prim, deepSortList_length]
          exact h1
        have hM2 : ¬((deepSortList l).all
            (fun v => discr v == discr ((deepSortList l).headD .null)) = true) := by
          rw [hM2_helper]
          exact h2
        rw [deep_sort_arr_else2 _ hM1 hM2,
          deepSortList_of_fixed _ (deepSortList_fix l)]
    · rw [deep_sort_arr_else1 l h1]
      have hM1 : ¬(((deepSortList l).all isPrimV &&
          (deepSortList l).length != 0) = true) := by
        rw [deepSortList_all_prim, deepSortList_length]
        exact h1
      rw [deep_sort_arr_else1 _ hM1,
        deepSortList_of_fixed _ (deepSortList_fix l)]
  | .obj es => by
    rw [deep_sort_obj]
    rw [deep_sort_obj]
    have hfix : ∀ p ∈ buildSorted (deepSortEntries es), deep_sort p.2 = p.2 :=
      fun p hp => deepSortEntries_fix es p (mem_buildSorted hp)
    rw [deepSortEntries_of_fixed _ hfix]
    have hsorted := buildSorted_sorted (deepSortEntries es)
    have hnodup := keys_nodup_of_sorted hsorted
    rw [eq_of_perm_of_sorted_entLt (buildSorted_perm hnodup)
      (buildSorted_sorted _) hsorted]

/-- Every element of a deep-sorted list is a `deep_sort` fixed point. -/
theorem deepSortList_fix : ∀ (l : List Value), ∀ v ∈ deepSortList l, deep_sort v = v
  | [] => by
    intro v hv
    cases hv
  | a :: t => by
    intro v hv
    rw [deepSortList] at hv
    rcases List.mem_cons.1 hv with h | h
    · rw [h]
      exact deep_sort_idem a
    · exact deepSortList_fix t v h

/-- Every value of a deep-sorted entry list is a `deep_sort` fixed point. -/
theorem deepSortEntries_fix :
    ∀ (es : List (String × Value)), ∀ p ∈ deepSortEntries es, deep_sort p.2 = p.2
  | [] => by
    intro p hp
    cases hp
  | (k, v) :: t => by
    intro p hp
    rw [deepSortEntries] at hp
    rcases List.mem_cons.1 hp with h | h
    · rw [h]
      exact deep_sort_idem v
    · exact deepSortEntries_fix t p h

end

/-! ### `deep_sort` preserves well-formedness -/

theorem wfValueList_mem (l : List Value) :
    wfValueList l = true ↔ ∀ v ∈ l, wfValue v = true := by
  induction l with
  | nil => simp [wfValueList]
  | cons a t ih =>
    rw [wfValueList, Bool.and_eq_true, ih]
    constructor
    · intro h v hv
      rcases List.mem_cons.1 hv with h2 | h2
      · rw [h2]
        exact h.1
      · exact h.2 v h2
    · intro h
      exact ⟨h a (List.mem_cons_self _ _),
        fun v hv => h v (List.mem_cons_of_mem _ hv)⟩

theorem wfValueEntries_mem (es : List (String × Value)) :
    wfValueEntries es = true ↔ ∀ p ∈ es, wfValue p.2 = true := by
  induction es with
  | nil => simp [wfValueEntries]
  | cons e t ih =>
    rcases e with ⟨k, v⟩
    rw [wfValueEntries, Bool.and_eq_true, ih]
    constructor
    · intro h p hp
      rcases List.mem_cons.1 hp with h2 | h2
      · rw [h2]
        exact h.1
      · exact h.2 p h2
    · intro h
      exact ⟨h (k, v) (List.mem_cons_self _ _),
        fun p hp => h p (List.mem_cons_of_mem _ hp)⟩

mutual

/-- `deep_sort` preserves well-formedness. -/
theorem wf_deep_sort : ∀ (v : Value), wfValue v = true → wfValue (deep_sort v) = true
  | .null => fun h => h
  | .bool _ => fun h => h
  | .num _ => fun h => h
  | .str _ => fun h => h
  | .arr l => by
    intro h
    have hl : wfValueList l = true := by
      rw [wfValue] at h
      exact h
    by_cases h1 : (l.all isPrimV && l.length != 0) = true
    · by_cases h2 : (l.all (fun v => discr v == discr (l.headD .null))) = true
      · rw [Bool.and_eq_true] at h1
        obtain ⟨hprim, hlen⟩ := h1
        have hne : l ≠ [] := by
          intro hc
          subst hc
          simp at hlen
        have hhomog : ∀ x ∈ l, ∀ y ∈ l, discr x = discr y := by
          intro x hx y hy
          have hx2 := List.all_eq_true.mp h2 x hx
          have hy2 := List.all_eq_true.mp h2 y hy
          rw [beq_iff_eq] at hx2 hy2
          rw [hx2, hy2]
        rw [deep_sort_arr_homog hprim hne hhomog, wfValue, wfValueList_mem]
        intro v hv
        exact (wfValueList_mem l).mp hl v ((insSortBy_perm cmpVal l).subset hv)
      · rw [deep_sort_arr_else2 l h1 h2, wfValue, wfValueList_mem]
        exact wfList_ds l hl
    · rw [deep_sort_arr_else1 l h1, wfValue, wfValueList_mem]
      exact wfList_ds l hl
  | .obj es => by
    intro h
    rw [wfValue, Bool.and_eq_true] at h
    rw [deep_sort_obj, wfValue, Bool.and_eq_true]
    refine ⟨?_, ?_⟩
    · rw [wfValueEntries_mem]
      intro p hp
      exact wfEntries_ds es h.1 p (mem_buildSorted hp)
    · exact decide_eq_true (keys_nodup_of_sorted (buildSorted_sorted _))

theorem wfList_ds : ∀ (l : List Value), wfValueList l = true →
    ∀ v ∈ deepSortList l, wfValue v = true
  | [] => by
    intro _ v hv
    cases hv
  | a :: t => by
    intro h v hv
    rw [wfValueList, Bool.and_eq_true] at h
    rw [deepSortList] at hv
    rcases List.mem_cons.1 hv with h2 | h2
    · rw [h2]
      exact wf_deep_sort a h.1
    · exact wfList_ds t h.2 v h2

theorem wfEntries_ds : ∀ (es : List (String × Value)), wfValueEntries es = true →
    ∀ p ∈ deepSortEntries es, wfValue p.2 = true
  | [] => by
    intro _ p hp
    cases hp
  | (k, v) :: t => by
    intro h p hp
    rw [wfValueEntries, Bool.and_eq_true] at h
    rw [deepSortEntries] at hp
    rcases List.mem_cons.1 hp with h2 | h2
    · rw [h2]
      exact wf_deep_sort v h.1
    · exact wfEntries_ds t h.2 p h2

end

/-! ### The canonical round trip -/

/-- Parsing a serialized well-formed value consumes the whole input and
returns the value. -/
theorem parseCanonical_serVal (v : Value) (hwf : wfValue v = true) :
    parseCanonical (String.mk (serVal v)) = some v := by
  have h := (parse_ser (2 * (serVal v).length + 1)).1 v [] hwf trivial (by omega)
  rw [List.append_nil] at h
  rw [parseCanonical]
  have hdata : (String.mk (serVal v)).data = serVal v := rfl
  rw [hdata, h]

/-- The canonical string of a well-formed object parses back to its deep
sort, whose canonicalization in either mode reproduces the string. -/
theorem canon_roundtrip_obj (es : List (String × Value)) (strict : Bool)
    (s : String) (hwf : wfValue (.obj es) = true)
    (h : canonicalize (.obj es) strict = .ok s) :
    ∃ w, parseCanonical s = some w ∧ ∀ strict2, canonicalize w strict2 = .ok s := by
  rw [canonicalize_obj_ok] at h
  injection h with h2
  subst h2
  refine ⟨deep_sort (.obj es), parseCanonical_serVal _ (wf_deep_sort _ hwf), ?_⟩
  intro strict2
  have hw : deep_sort (.obj es) = .obj (buildSorted (deepSortEntries es)) :=
    deep_sort_obj es
  rw [hw, canonicalize_obj_ok, ← hw, deep_sort_idem]


/-- C8: canonicalization is idempotent through a parse round trip.  For
every well-formed value and either mode, a canonical string produced by
`canonicalize` parses back (under the canonical grammar of the serializer)
to a value whose canonicalization — strict or not — reproduces the same
string byte for byte. -/
theorem claim_C8_idempotent (v : Value) (strict : Bool) (s : String)
    (hwf : wfValue v = true) (h : canonicalize v strict = .ok s) :
    ∃ w, parseCanonical s = some w ∧ ∀ strict2, canonicalize w strict2 = .ok s := by
  cases hobj : v.isObject with
  | true =>
    obtain ⟨es, rfl⟩ := obj_of_isObject hobj
    exact canon_roundtrip_obj es strict s hwf h
  | false =>
    cases strict with
    | true =>
      rw [canonicalize_nonobject_strict hobj] at h
      exact nomatch h
    | false =>
      rw [canonicalize, if_neg (by rw [hobj]; exact Bool.false_ne_true),
        if_neg Bool.false_ne_true] at h
      have h2 : canonicalize (.obj [("value", v)]) false = .ok s := by
        rw [canonicalize,
          if_pos (show Value.isObject (.obj [("value", v)]) = true from rfl)]
        exact h
      have hwfw : wfValue (.obj [("value", v)]) = true := by
        rw [wfValue, wfValueEntries, wfValueEntries]
        simp [hwf]
      exact canon_roundtrip_obj [("value", v)] false s hwfw h2

theorem claim_C8_witness :
    (wfValue (.obj [("a", .num (.pos 1))]) = true ∧
      canonicalize (.obj [("a", .num (.pos 1))]) true =
        .ok (String.mk [lbrace, dquote, 'a', dquote, ':', '1', rbrace])) ∧
    ∃ w, parseCanonical (String.mk [lbrace, dquote, 'a', dquote, ':', '1', rbrace]) =
        some w ∧
      ∀ strict2, canonicalize w strict2 =
        .ok (String.mk [lbrace, dquote, 'a', dquote, ':', '1', rbrace]) :=
  ⟨⟨by decide, by decide⟩,
    claim_C8_idempotent (.obj [("a", .num (.pos 1))]) true
      (String.mk [lbrace, dquote, 'a', dquote, ':', '1', rbrace])
      (by decide) (by decide)⟩

end OCP
